import Mathlib

/-!
# FlowForge backend — shallow embedding and verification

This file embeds the core of the FlowForge workflow backend in Lean 4:
the criteria evaluation service (`evaluateCriteria` and its helpers), the
context extractor (`extractContext`), and the workflow execution engine
(`WorkflowExecutor.execute` / `executeSteps` / `completeRun` / `failRun` /
`getRunStatus`) together with the JSON-file database operations the engine
uses (`db/schema.js`).

JavaScript strings are modelled as Lean `String` / `List Char`; the
JavaScript-specific primitives the source relies on (`String.includes`,
`String.replace` with a global regex and `$`-pattern expansion in the
replacement, `parseInt`, `JSON.parse` validity, the concrete regex literals
used by the criteria service) are given explicit executable models below.
External collaborators (the Unbound completion provider, the LLM judge,
and the dynamic `new RegExp(pattern)` compilation of a *runtime* pattern
string) are modelled as oracle parameters, since they are outside this
repository's code.
-/

namespace FlowForge

/-! ## Basic JavaScript string primitives -/

/-- Decidable prefix test on character lists: `isPre needle hay` is true iff
`needle` is a prefix of `hay`. -/
def isPre : List Char → List Char → Bool
  | [], _ => true
  | _ :: _, [] => false
  | a :: as, b :: bs => a = b && isPre as bs

/-- Model of JavaScript `hay.includes(needle)`: substring occurrence test.
`includes` of the empty string is `true`. -/
def containsSubstrL (hay needle : List Char) : Bool :=
  match hay with
  | [] => needle.isEmpty
  | _ :: t => isPre needle hay || containsSubstrL t needle

/-- String-level wrapper for `containsSubstrL`. -/
def containsSubstr (hay needle : String) : Bool :=
  containsSubstrL hay.data needle.data

/-- Model of JavaScript `s.toLowerCase()` (ASCII case folding). -/
def toLowerStr (s : String) : String :=
  ⟨s.data.map Char.toLower⟩

/-- Model of JavaScript `s.toUpperCase()` (ASCII case folding). -/
def toUpperStr (s : String) : String :=
  ⟨s.data.map Char.toUpper⟩

/-- Model of JavaScript `s.startsWith(p)`. -/
def startsWithStr (s p : String) : Bool :=
  isPre p.data s.data

/-- The whitespace class used by JavaScript (`\s`, `trim`, `parseInt`
skipping): ASCII whitespace plus the common Unicode space characters. -/
def jsWhitespace (c : Char) : Bool :=
  c = ' ' || c = '\t' || c = '\n' || c = '\r' ||
  c = Char.ofNat 11 || c = Char.ofNat 12 || c = Char.ofNat 0xA0 ||
  c = Char.ofNat 0x2028 || c = Char.ofNat 0x2029 || c = Char.ofNat 0xFEFF

/-- Model of JavaScript `s.trim()`: strip whitespace from both ends. -/
def jsTrimL (l : List Char) : List Char :=
  ((l.dropWhile jsWhitespace).reverse.dropWhile jsWhitespace).reverse

/-! ## Model of JavaScript `parseInt`

`parseInt(s)` (no radix argument): skip leading whitespace, read an
optional sign, then either a `0x`/`0X`-prefixed hexadecimal digit run or a
decimal digit run (longest prefix); the result is `none` (JavaScript `NaN`)
when no digit is read. -/

/-- Digit value of a character in the given radix, if any. -/
def digitVal (radix : Nat) (c : Char) : Option Nat :=
  let v :=
    if '0' ≤ c ∧ c ≤ '9' then some (c.toNat - '0'.toNat)
    else if 'a' ≤ c ∧ c ≤ 'f' then some (c.toNat - 'a'.toNat + 10)
    else if 'A' ≤ c ∧ c ≤ 'F' then some (c.toNat - 'A'.toNat + 10)
    else none
  match v with
  | some n => if n < radix then some n else none
  | none => none

/-- Read the longest digit-run prefix in the given radix, accumulating its
value; returns `none` if no digit was read at all. -/
def readDigits (radix : Nat) : List Char → Option Nat → Option Nat
  | [], acc => acc
  | c :: t, acc =>
    match digitVal radix c with
    | some d => readDigits radix t (some ((acc.getD 0) * radix + d))
    | none => acc

/-- Model of JavaScript `parseInt(s)`; `none` models `NaN`. -/
def jsParseInt (s : String) : Option Int :=
  let l := s.data.dropWhile jsWhitespace
  let (sign, l) : Int × List Char :=
    match l with
    | '-' :: t => (-1, t)
    | '+' :: t => (1, t)
    | _ => (1, l)
  let (radix, l) : Nat × List Char :=
    match l with
    | '0' :: 'x' :: t => (16, t)
    | '0' :: 'X' :: t => (16, t)
    | _ => (10, l)
  match readDigits radix l none with
  | some n => some (sign * (n : Int))
  | none => none

/-! ## The `{context}` placeholder and JavaScript string replacement

The executor renders a step's prompt with
`prompt.replace(/\{context\}/g, previousContext)`.  JavaScript expands
dollar patterns (`$$`, `$&`, `` $` ``, `$'`) inside a string replacement,
so the model carries the original prefix and suffix of each match. -/

/-- The context placeholder token `{context}` as a character list. -/
def contextPat : List Char := '\x7b' :: 'c' :: 'o' :: 'n' :: 't' :: 'e' :: 'x' :: 't' :: '\x7d' :: []

/-- JavaScript `GetSubstitution` for the replacement string of
`replace(/\{context\}/g, repl)`: `pre`/`post` are the parts of the subject
before and after the current match; the pattern has no capture groups, so
`$1`-style references stay literal. -/
def expandRepl (pre post : List Char) : List Char → List Char
  | [] => []
  | c :: t =>
    if c = '$' then
      match t with
      | '$' :: t2 => '$' :: expandRepl pre post t2
      | '&' :: t2 => contextPat ++ expandRepl pre post t2
      | d :: t2 =>
        if d = Char.ofNat 96 then pre ++ expandRepl pre post t2
        else if d = Char.ofNat 39 then post ++ expandRepl pre post t2
        else '$' :: expandRepl pre post (d :: t2)
      | [] => '$' :: []
    else c :: expandRepl pre post t

/-- Worker for `jsReplaceContext`: scan the subject, replacing every
occurrence of `{context}` by the expanded replacement; `pre` is the
already-consumed prefix of the original string (needed for `` $` ``).
Recursion is on explicit fuel so that the kernel can evaluate it; any
`fuel ≥ length` gives the scan's value. -/
def jsReplaceCtxAux (ctx : List Char) : Nat → List Char → List Char → List Char
  | 0, _, _ => []
  | _ + 1, _, [] => []
  | f + 1, pre, c :: rest =>
    if isPre contextPat (c :: rest) then
      expandRepl pre ((c :: rest).drop 9) ctx ++
        jsReplaceCtxAux ctx f (pre ++ contextPat) ((c :: rest).drop 9)
    else c :: jsReplaceCtxAux ctx f (pre ++ [c]) rest

/-- Model of JavaScript `s.replace(/\{context\}/g, ctx)`. -/
def jsReplaceContext (s ctx : String) : String :=
  ⟨jsReplaceCtxAux ctx.data s.data.length [] s.data⟩

/-- Modelled from the spec's words, for refinement comparison with the
engine's rendering: "substitute every occurrence with `previousContext`" —
plain literal replacement of every occurrence of the placeholder
(fuelled like `jsReplaceCtxAux`). -/
def replaceCtxLit (ctx : List Char) : Nat → List Char → List Char
  | 0, _ => []
  | _ + 1, [] => []
  | f + 1, c :: rest =>
    if isPre contextPat (c :: rest) then
      ctx ++ replaceCtxLit ctx f ((c :: rest).drop 9)
    else c :: replaceCtxLit ctx f rest

/-- String-level wrapper for `replaceCtxLit`. -/
def replaceContextSpec (s ctx : String) : String :=
  ⟨replaceCtxLit ctx.data s.data.length s.data⟩

/-- Returns `true` iff the string contains no dollar sign (so that JavaScript's
replacement-pattern expansion leaves it unchanged). -/
def noDollar (s : String) : Bool :=
  s.data.all (· ≠ '$')

/-- Prompt rendering of `WorkflowExecutor.executeSteps` (lines 346–350):
substitute the placeholder only when `previousContext` is truthy
(non-empty) and the prompt contains `{context}`. -/
def renderPrompt (stepPrompt previousContext : String) : String :=
  if !previousContext.isEmpty && containsSubstr stepPrompt ⟨contextPat⟩ then
    jsReplaceContext stepPrompt previousContext
  else
    stepPrompt

/-- Out-of-band context computation of `WorkflowExecutor.executeSteps`
(line 353): `prompt.includes(previousContext) ? '' : previousContext`. -/
def contextToPass (prompt previousContext : String) : String :=
  if containsSubstr prompt previousContext then "" else previousContext

/-! ## Criteria evaluation service (`services/criteria.js`) -/

/-- Result of a criteria evaluation: `{ passed, reason }`. -/
structure Verdict where
  passed : Bool
  reason : String
  deriving Repr, DecidableEq

/-- A code fence: three backtick characters. -/
def fence : List Char := Char.ofNat 96 :: Char.ofNat 96 :: Char.ofNat 96 :: []

/-- Split at the first code fence of `l`: returns the part before the fence
and the part after it, or `none` if `l` contains no fence.  `fuel` bounds
the scan (`l.length + 1` always suffices). -/
def splitAtFence : Nat → List Char → List Char → Option (List Char × List Char)
  | 0, _, _ => none
  | _ + 1, _, [] => none
  | f + 1, acc, c :: rest =>
    if isPre fence (c :: rest) then some (acc.reverse, (c :: rest).drop 3)
    else splitAtFence f (c :: acc) rest

/-- All matches of the global lazy regex `` /```[\s\S]*?```/g ``: each block
runs from an opening fence to the next fence, fences included; scanning
continues after each match. -/
def matchFencedAux : Nat → List Char → List (List Char)
  | 0, _ => []
  | _ + 1, [] => []
  | f + 1, c :: rest =>
    if isPre fence (c :: rest) then
      match splitAtFence (rest.length + 1) [] ((c :: rest).drop 3) with
      | some (body, after) => (fence ++ body ++ fence) :: matchFencedAux f after
      | none => []
    else matchFencedAux f rest

/-- Model of `output.match(/```[\s\S]*?```/g)` (empty list models `null`). -/
def matchAllFenced (l : List Char) : List (List Char) :=
  matchFencedAux (l.length + 1) l

/-- Leftmost match of `` /OPENER\s*([\s\S]*?)\s*```/ `` for a literal opener
(`` ```json `` or `` ``` ``): the capture is the text between the end of the
opener and the next fence, with surrounding whitespace stripped (the greedy
`\s*` bounds combined with the lazy group amount to a trim). -/
def fencedCandAux (opener : List Char) : Nat → List Char → Option (List Char)
  | 0, _ => none
  | _ + 1, [] => none
  | f + 1, c :: rest =>
    if isPre opener (c :: rest) then
      match splitAtFence (((c :: rest).drop opener.length).length + 1) []
          ((c :: rest).drop opener.length) with
      | some (body, _) => some (jsTrimL body)
      | none => fencedCandAux opener f rest
    else fencedCandAux opener f rest

/-- Wrapper for `fencedCandAux` with sufficient fuel. -/
def fencedCandidate (opener l : List Char) : Option (List Char) :=
  fencedCandAux opener (l.length + 1) l

/-- Match of `/(\{[\s\S]*\})/` (resp. brackets): from the first occurrence
of the opening delimiter to the last occurrence of the closing delimiter
(the leftmost start with the greedy any-sequence), if the latter comes
after the former. -/
def delimCandidate (openC closeC : Char) (l : List Char) : Option (List Char) :=
  match l.findIdx? (· = openC) with
  | none => none
  | some i =>
    match l.reverse.findIdx? (· = closeC) with
    | none => none
    | some jr =>
      let j := l.length - 1 - jr
      if i < j then some ((l.drop i).take (j - i + 1)) else none

/-! ### JSON validity (model of `JSON.parse` success) -/

/-- JSON whitespace (space, tab, line feed, carriage return). -/
def jsonWsChar (c : Char) : Bool :=
  c = ' ' || c = '\t' || c = '\n' || c = '\r'

/-- Skip JSON whitespace. -/
def skipJsonWs (l : List Char) : List Char :=
  l.dropWhile jsonWsChar

/-- ASCII decimal digit test. -/
def isDigitCh (c : Char) : Bool := '0' ≤ c && c ≤ '9'

/-- ASCII hexadecimal digit test. -/
def isHexCh (c : Char) : Bool :=
  isDigitCh c || ('a' ≤ c && c ≤ 'f') || ('A' ≤ c && c ≤ 'F')

/-- Parse one-or-more decimal digits; returns the rest on success. -/
def parseDigits1 (l : List Char) : Option (List Char) :=
  match l with
  | c :: _ => if isDigitCh c then some (l.dropWhile isDigitCh) else none
  | [] => none

/-- Parse a JSON number (`-? (0|[1-9][0-9]*) frac? exp?`); returns the rest
on success. -/
def parseJsonNumber (l : List Char) : Option (List Char) :=
  let l := match l with
    | '-' :: t => t
    | _ => l
  let intPart : Option (List Char) :=
    match l with
    | '0' :: t => some t
    | c :: _ => if isDigitCh c then some (l.dropWhile isDigitCh) else none
    | [] => none
  match intPart with
  | none => none
  | some l =>
    let fracPart : Option (List Char) :=
      match l with
      | '.' :: t => parseDigits1 t
      | _ => some l
    match fracPart with
    | none => none
    | some l =>
      match l with
      | 'e' :: t | 'E' :: t =>
        (match t with
         | '+' :: t2 => parseDigits1 t2
         | '-' :: t2 => parseDigits1 t2
         | _ => parseDigits1 t)
      | _ => some l

/-- Parse the body of a JSON string after the opening quote, handling the
JSON escape sequences; returns the rest after the closing quote. -/
def parseJsonString : Nat → List Char → Option (List Char)
  | 0, _ => none
  | _ + 1, [] => none
  | f + 1, c :: t =>
    if c = '"' then some t
    else if c = '\\' then
      match t with
      | e :: t2 =>
        if e = '"' || e = '\\' || e = '/' || e = 'b' || e = 'f' ||
            e = 'n' || e = 'r' || e = 't' then
          parseJsonString f t2
        else if e = 'u' then
          match t2 with
          | h1 :: h2 :: h3 :: h4 :: t3 =>
            if isHexCh h1 && isHexCh h2 && isHexCh h3 && isHexCh h4 then
              parseJsonString f t3
            else none
          | _ => none
        else none
      | [] => none
    else if c.toNat ≥ 0x20 then parseJsonString f t
    else none

mutual

/-- Parse one JSON value (with surrounding-whitespace skip on entry);
returns the unconsumed rest on success. -/
def parseJsonValue : Nat → List Char → Option (List Char)
  | 0, _ => none
  | f + 1, l =>
    match skipJsonWs l with
    | '\x7b' :: t =>
      (match skipJsonWs t with
       | '\x7d' :: t2 => some t2
       | t2 => parseJsonMembers f t2)
    | '[' :: t =>
      (match skipJsonWs t with
       | ']' :: t2 => some t2
       | t2 => parseJsonElems f t2)
    | '"' :: t => parseJsonString (t.length + 1) t
    | 't' :: 'r' :: 'u' :: 'e' :: t => some t
    | 'f' :: 'a' :: 'l' :: 's' :: 'e' :: t => some t
    | 'n' :: 'u' :: 'l' :: 'l' :: t => some t
    | l2 => parseJsonNumber l2

/-- Parse object members (`string : value` separated by commas) up to and
including the closing brace. -/
def parseJsonMembers : Nat → List Char → Option (List Char)
  | 0, _ => none
  | f + 1, l =>
    match skipJsonWs l with
    | '"' :: t =>
      (match parseJsonString (t.length + 1) t with
       | none => none
       | some r1 =>
         match skipJsonWs r1 with
         | ':' :: r2 =>
           (match parseJsonValue f r2 with
            | none => none
            | some r3 =>
              match skipJsonWs r3 with
              | ',' :: r4 => parseJsonMembers f r4
              | '\x7d' :: r4 => some r4
              | _ => none)
         | _ => none)
    | _ => none

/-- Parse array elements separated by commas up to and including the
closing bracket. -/
def parseJsonElems : Nat → List Char → Option (List Char)
  | 0, _ => none
  | f + 1, l =>
    match parseJsonValue f l with
    | none => none
    | some r =>
      match skipJsonWs r with
      | ',' :: r2 => parseJsonElems f r2
      | ']' :: r2 => some r2
      | _ => none

end

/-- Model of a successful `JSON.parse(text)`: one JSON value with only whitespace
around it. -/
def jsonValidL (l : List Char) : Bool :=
  match parseJsonValue (2 * l.length + 2) l with
  | some r => (skipJsonWs r).isEmpty
  | none => false

/-- The candidate substrings that `evaluateJson` tries, in source order:
fenced block tagged `json`, any fenced block, brace-delimited substring,
bracket-delimited substring. -/
def jsonCandidates (l : List Char) : List (List Char) :=
  (fencedCandidate (fence ++ ('j' :: 's' :: 'o' :: 'n' :: [])) l ::
   fencedCandidate fence l ::
   delimCandidate '\x7b' '\x7d' l ::
   delimCandidate '[' ']' l :: []).filterMap id

/-- Model of `evaluateJson`: try each pattern's candidate in order, passing on the
first that parses as JSON (the verdict is the same whichever candidate
succeeds, so the first-success loop is equivalent to `any`); if no
candidate parses, try the entire output. -/
def evaluateJson (output : String) : Verdict :=
  if (jsonCandidates output.data).any (fun c => jsonValidL c) then
    { passed := true, reason := "Valid JSON found in output" }
  else if jsonValidL output.data then
    { passed := true, reason := "Output is valid JSON" }
  else
    { passed := false, reason := "No valid JSON found in output" }

/-! ### Code criterion -/

/-- JavaScript `\w` word characters. -/
def wordChar (c : Char) : Bool :=
  (c.isAlpha && c.toNat < 128) || isDigitCh c || c = '_'

/-- Does predicate `p` hold of some suffix of the list?  (Model of an
unanchored regex test; `fuel = length + 1` suffices.) -/
def scanSuffixes (p : List Char → Bool) : Nat → List Char → Bool
  | 0, _ => false
  | _ + 1, [] => p []
  | f + 1, c :: rest => p (c :: rest) || scanSuffixes p f rest

/-- Unanchored regex test wrapper. -/
def testPattern (p : List Char → Bool) (l : List Char) : Bool :=
  scanSuffixes p (l.length + 1) l

/-- Match of `kw\s+\w+\s*\(` at the start of the list. -/
def kwFnParenP (kw : List Char) (l : List Char) : Bool :=
  isPre kw l &&
    (let r := l.drop kw.length
     let r1 := r.dropWhile jsWhitespace
     decide (r1.length < r.length) &&
       (let r2 := r1.dropWhile wordChar
        decide (r2.length < r1.length) &&
          (match r2.dropWhile jsWhitespace with
           | '(' :: _ => true
           | _ => false)))

/-- Match of `class\s+\w+` at the start of the list. -/
def classDeclP (l : List Char) : Bool :=
  isPre ('c' :: 'l' :: 'a' :: 's' :: 's' :: []) l &&
    (let r := l.drop 5
     let r1 := r.dropWhile jsWhitespace
     decide (r1.length < r.length) &&
       (match r1 with
        | c :: _ => wordChar c
        | [] => false))

/-- Match of `kw\s+` at the start of the list (for `import`, `const`,
`let`, `var`). -/
def kwWsP (kw : List Char) (l : List Char) : Bool :=
  isPre kw l &&
    (let r := l.drop kw.length
     decide ((r.dropWhile jsWhitespace).length < r.length))

/-- The heuristic source-code patterns of `evaluateCode` (in source order:
Python function, JavaScript function, class definition, import statement,
variable declaration). -/
def hasCodePattern (l : List Char) : Bool :=
  testPattern (kwFnParenP ('d' :: 'e' :: 'f' :: [])) l ||
  testPattern (kwFnParenP ('f' :: 'u' :: 'n' :: 'c' :: 't' :: 'i' :: 'o' :: 'n' :: [])) l ||
  testPattern classDeclP l ||
  testPattern (kwWsP ('i' :: 'm' :: 'p' :: 'o' :: 'r' :: 't' :: [])) l ||
  (testPattern (kwWsP ('c' :: 'o' :: 'n' :: 's' :: 't' :: [])) l ||
   testPattern (kwWsP ('l' :: 'e' :: 't' :: [])) l ||
   testPattern (kwWsP ('v' :: 'a' :: 'r' :: [])) l)

/-- Model of `evaluateCode`: pass if fenced code blocks exist (and, when a language
is named, some block's fence tag carries it, case-insensitively — the
language string is taken literally, as it is for the alphanumeric language
tags this backend uses); without fenced blocks, fall back to the heuristic
source-code patterns. -/
def evaluateCode (output language : String) : Verdict :=
  let codeBlocks := matchAllFenced output.data
  if codeBlocks.isEmpty then
    let hasCode := hasCodePattern output.data
    { passed := hasCode,
      reason :=
        if hasCode then "Code detected in output"
        else "No code blocks or patterns found" }
  else if !language.isEmpty then
    let hasLang := codeBlocks.any fun b =>
      containsSubstrL (b.map Char.toLower) (fence ++ language.data.map Char.toLower)
    { passed := hasLang,
      reason :=
        if hasLang then language ++ " code block found"
        else "No " ++ language ++ " code block found" }
  else
    { passed := true,
      reason := "Found " ++ toString codeBlocks.length ++ " code block(s)" }

/-- Model of `evaluateRegex`: the dynamic compilation `new RegExp(pattern, 'im')`
of a runtime pattern string is external to this repository's code and is
modelled by the oracle `rt` (`.error msg` models a compile failure). -/
def evaluateRegex (rt : String → String → Except String Bool)
    (output pattern : String) : Verdict :=
  if pattern.isEmpty then
    { passed := true, reason := "No pattern to match" }
  else
    match rt pattern output with
    | .ok m =>
      { passed := m,
        reason :=
          if m then "Output matches pattern \"" ++ pattern ++ "\""
          else "Output does not match pattern \"" ++ pattern ++ "\"" }
    | .error msg =>
      { passed := false, reason := "Invalid regex pattern: " ++ msg }

/-- The fixed evaluation prompt that `evaluateLLM` sends to the judge. -/
def llmEvalPrompt (criteria output : String) : String :=
  "You are evaluating whether an AI response meets specific criteria.\n\nCRITERIA: "
    ++ criteria ++ "\n\nRESPONSE TO EVALUATE:\n" ++ output ++
    "\n\nDoes this response meet the criteria? Reply with ONLY \"PASS\" or \"FAIL\" followed by a brief explanation."

/-- Model of `evaluateLLM`: requires a judge capability (`none` models the absent
`llmCall`); passes iff the judge's reply starts with `PASS`
case-insensitively; a judge failure is caught and reported. -/
def evaluateLLM (judge : Option (String → Except String String))
    (output criteria : String) : Verdict :=
  match judge with
  | none => { passed := false, reason := "LLM evaluation not available" }
  | some j =>
    match j (llmEvalPrompt criteria output) with
    | .ok content =>
      { passed := startsWithStr (toUpperStr content) "PASS", reason := content }
    | .error msg =>
      { passed := false, reason := "LLM evaluation failed: " ++ msg }

/-! ## Context extractor (`extractContext` in `services/criteria.js`) -/

/-- Remove all matches of `` /```\w*\n?/g `` from a block (the fence
markers with an optional language tag and newline). -/
def stripFenceMarkers : Nat → List Char → List Char
  | 0, _ => []
  | _ + 1, [] => []
  | f + 1, c :: rest =>
    if isPre fence (c :: rest) then
      let r := ((c :: rest).drop 3).dropWhile wordChar
      let r := match r with
        | '\n' :: t => t
        | _ => r
      stripFenceMarkers f r
    else c :: stripFenceMarkers f rest

/-- Split on `/\n\n+/` (runs of two-or-more newlines). -/
def splitParasAux : Nat → List Char → List Char → List (List Char)
  | 0, acc, _ => [acc.reverse]
  | f + 1, acc, l =>
    match l with
    | '\n' :: '\n' :: rest =>
      acc.reverse :: splitParasAux f [] (rest.dropWhile (· = '\n'))
    | c :: rest => splitParasAux f (c :: acc) rest
    | [] => [acc.reverse]

/-- Wrapper for `splitParasAux` with sufficient fuel. -/
def splitParas (l : List Char) : List (List Char) :=
  splitParasAux (l.length + 1) [] l

/-- The non-blank paragraph fragments (`.filter(p => p.trim())`). -/
def paragraphsOf (l : List Char) : List (List Char) :=
  (splitParas l).filter fun p => !(jsTrimL p).isEmpty

/-- Model of `extractContext` (`services/criteria.js` lines 209–242): derive the
context handed to the next step from the output and the context mode. -/
def extractContext (output : String) (mode : String) : String :=
  if output.isEmpty then ""
  else
    match mode with
    | "full" => output
    | "code_only" =>
      let codeBlocks := matchAllFenced output.data
      if codeBlocks.isEmpty then output
      else
        ⟨List.intercalate ('\n' :: '\n' :: [])
          (codeBlocks.map fun b => jsTrimL (stripFenceMarkers (b.length + 1) b))⟩
    | "last_paragraph" =>
      (match (paragraphsOf output.data).getLast? with
       | some p => ⟨p⟩
       | none => output)
    | "first_paragraph" =>
      (match (paragraphsOf output.data).head? with
       | some p => ⟨p⟩
       | none => output)
    | "summary" =>
      if output.length ≤ 500 then output
      else ⟨output.data.take 500 ++ ('.' :: '.' :: '.' :: [])⟩
    | _ => output

/-- Model of `evaluateContains`: case-insensitive substring test of `value` in
`output`; empty `value` auto-passes. -/
def evaluateContains (output value : String) : Verdict :=
  if value.isEmpty then
    { passed := true, reason := "No value to check" }
  else
    let contains := containsSubstr (toLowerStr output) (toLowerStr value)
    { passed := contains,
      reason :=
        if contains then "Output contains \"" ++ value ++ "\""
        else "Output does not contain \"" ++ value ++ "\"" }

/-- Model of `evaluateNotContains`: inverse of `evaluateContains`; empty `value`
auto-passes. -/
def evaluateNotContains (output value : String) : Verdict :=
  if value.isEmpty then
    { passed := true, reason := "No value to check" }
  else
    let contains := containsSubstr (toLowerStr output) (toLowerStr value)
    { passed := !contains,
      reason :=
        if !contains then "Output does not contain \"" ++ value ++ "\""
        else "Output contains \"" ++ value ++ "\" (should not)" }

/-- Model of `evaluateLengthMin`: `parseInt(minLength) || 0`, pass iff
`output.length >= min`.  In JavaScript `NaN` and `0` are both falsy, so a
failed parse and a parsed `0` both yield minimum `0`. -/
def evaluateLengthMin (output minLength : String) : Verdict :=
  let min : Int := match jsParseInt minLength with
    | some n => n
    | none => 0
  let len : Nat := output.length
  let passed := (len : Int) ≥ min
  { passed := passed,
    reason :=
      if passed then
        "Output length (" ++ toString len ++ ") meets minimum (" ++ toString min ++ ")"
      else
        "Output too short (" ++ toString len ++ " < " ++ toString min ++ ")" }

/-- The effective maximum for `evaluateLengthMax`: JavaScript computes
`parseInt(maxLength) || Infinity`, so a failed parse (`NaN`) *and* a parsed
`0` (both falsy) yield `Infinity`, modelled as `none`. -/
def lengthMaxLimit (maxLength : String) : Option Int :=
  match jsParseInt maxLength with
  | some n => if n = 0 then none else some n
  | none => none

/-- Rendering of the limit in the reason string (`Infinity` for `none`). -/
def lengthMaxLimitStr (m : Option Int) : String :=
  match m with
  | some n => toString n
  | none => "Infinity"

/-- Model of `evaluateLengthMax`: `parseInt(maxLength) || Infinity`, pass iff
`output.length <= max`. -/
def evaluateLengthMax (output maxLength : String) : Verdict :=
  let max := lengthMaxLimit maxLength
  let len : Nat := output.length
  let passed := match max with
    | none => true
    | some n => (len : Int) ≤ n
  { passed := passed,
    reason :=
      if passed then
        "Output length (" ++ toString len ++ ") within maximum (" ++ lengthMaxLimitStr max ++ ")"
      else
        "Output too long (" ++ toString len ++ " > " ++ lengthMaxLimitStr max ++ ")" }

/-- Model of `evaluateCriteria` (`services/criteria.js` lines 14–50): empty output
always fails with the fixed reason; otherwise dispatch on the criteria
type, auto-passing on `always` and on unrecognized kinds. -/
def evaluateCriteria (rt : String → String → Except String Bool)
    (judge : Option (String → Except String String))
    (output criteriaType criteriaValue : String) : Verdict :=
  if output.isEmpty then
    { passed := false, reason := "No output received" }
  else
    match criteriaType with
    | "contains" => evaluateContains output criteriaValue
    | "not_contains" => evaluateNotContains output criteriaValue
    | "regex" => evaluateRegex rt output criteriaValue
    | "json" => evaluateJson output
    | "code" => evaluateCode output criteriaValue
    | "length_min" => evaluateLengthMin output criteriaValue
    | "length_max" => evaluateLengthMax output criteriaValue
    | "llm" => evaluateLLM judge output criteriaValue
    | "always" => { passed := true, reason := "Always passes" }
    | _ => { passed := true, reason := "No criteria specified, auto-pass" }

/-! ## Database model (`db/schema.js`, the operations the engine uses)

`uuidv4()` is modelled by a fresh-id counter `nextId`; the wall-clock
timestamp fields (`started_at`, `completed_at`, `created_at`) are real-time
values outside the model and are omitted — no claim mentions them.
Floating-point costs are modelled as integers in abstract monetary
units (no claim depends on cost values, only on their additive
accumulation). -/

/-- A workflow record (the fields the engine reads). -/
structure Workflow where
  id : Nat
  name : String
  description : String
  deriving Repr, DecidableEq

/-- A step record as stored by `addStep`. -/
structure Step where
  id : Nat
  workflow_id : Nat
  order_index : Nat
  name : String
  model : String
  prompt : String
  criteria_type : String
  criteria_value : String
  retry_limit : Nat
  context_mode : String
  deriving Repr, DecidableEq

/-- A run record as created by `createRun`. -/
structure Run where
  id : Nat
  workflow_id : Nat
  status : String
  total_cost : Int
  total_tokens : Nat
  deriving Repr, DecidableEq

/-- A step-execution record as created by `createStepExecution`. -/
structure StepExecution where
  id : Nat
  run_id : Nat
  step_id : Nat
  status : String
  attempts : Nat
  input_context : Option String
  output : Option String
  error : Option String
  tokens_used : Nat
  cost : Int
  deriving Repr, DecidableEq

/-- The JSON-file database state. -/
structure DB where
  workflows : List Workflow
  steps : List Step
  runs : List Run
  step_executions : List StepExecution
  nextId : Nat
  deriving Repr, DecidableEq

/-- Model of `db.getWorkflow(id)`. -/
def getWorkflow (db : DB) (id : Nat) : Option Workflow :=
  db.workflows.find? fun w => decide (w.id = id)

/-- Insert `x` into a sorted list, before the first element it compares
`le` to (so that a stable sort results). -/
def insertByLe (le : α → α → Bool) (x : α) : List α → List α
  | [] => x :: []
  | y :: ys => if le x y then x :: y :: ys else y :: insertByLe le x ys

/-- Stable insertion sort: the model of `Array.prototype.sort` with the
comparator `(a, b) => a.order_index - b.order_index` (the ECMAScript sort
is stable, and any two stable sorts by the same key agree). -/
def stableSortByLe (le : α → α → Bool) : List α → List α
  | [] => []
  | x :: xs => insertByLe le x (stableSortByLe le xs)

/-- Model of `db.getWorkflowSteps(id)`: the workflow's steps sorted by
`order_index`. -/
def getWorkflowSteps (db : DB) (workflowId : Nat) : List Step :=
  stableSortByLe (fun a b => decide (a.order_index ≤ b.order_index))
    (db.steps.filter fun s => decide (s.workflow_id = workflowId))

/-- Model of `db.createRun(workflowId)`. -/
def createRun (db : DB) (workflowId : Nat) : Run × DB :=
  let run : Run :=
    { id := db.nextId, workflow_id := workflowId, status := "running",
      total_cost := 0, total_tokens := 0 }
  (run, { db with runs := db.runs ++ [run], nextId := db.nextId + 1 })

/-- Model of `db.createStepExecution(runId, stepId)`. -/
def createStepExecution (db : DB) (runId stepId : Nat) : StepExecution × DB :=
  let se : StepExecution :=
    { id := db.nextId, run_id := runId, step_id := stepId, status := "pending",
      attempts := 0, input_context := none, output := none, error := none,
      tokens_used := 0, cost := 0 }
  (se, { db with step_executions := db.step_executions ++ [se], nextId := db.nextId + 1 })

/-- Model of `db.getStepExecution(runId, stepId)`. -/
def getStepExecution (db : DB) (runId stepId : Nat) : Option StepExecution :=
  db.step_executions.find? fun se => decide (se.run_id = runId) && decide (se.step_id = stepId)

/-- Update the first list entry satisfying `p` (model of
`findIndex` + merge of partial fields; no entry found leaves the list
unchanged). -/
def updateFirst (p : α → Bool) (f : α → α) : List α → List α
  | [] => []
  | x :: t => if p x then f x :: t else x :: updateFirst p f t

/-- Model of `db.updateStepExecution(id, updates)`; the concrete partial-field
objects of the engine become the update function `f`. -/
def updateStepExecution (db : DB) (id : Nat) (f : StepExecution → StepExecution) : DB :=
  { db with step_executions := updateFirst (fun se => decide (se.id = id)) f db.step_executions }

/-- Model of `db.updateRun(id, updates)`. -/
def updateRun (db : DB) (id : Nat) (f : Run → Run) : DB :=
  { db with runs := updateFirst (fun r => decide (r.id = id)) f db.runs }

/-! ## Workflow execution engine (`services/executor.js`) -/

/-- An entry of the in-memory `activeRuns` map. -/
structure ActiveRun where
  workflowId : Nat
  status : String
  deriving Repr, DecidableEq

/-- The engine's in-memory state: the `activeRuns` map, keyed by run id. -/
structure Engine where
  activeRuns : List (Nat × ActiveRun)
  deriving Repr, DecidableEq

/-- Model of `Map.set` (unique keys). -/
def mapSet (m : List (Nat × ActiveRun)) (k : Nat) (v : ActiveRun) :
    List (Nat × ActiveRun) :=
  (k, v) :: m.filter fun e => decide (e.1 ≠ k)

/-- Model of `Map.delete`. -/
def mapDelete (m : List (Nat × ActiveRun)) (k : Nat) : List (Nat × ActiveRun) :=
  m.filter fun e => decide (e.1 ≠ k)

/-- Model of `Map.get`. -/
def mapGet (m : List (Nat × ActiveRun)) (k : Nat) : Option ActiveRun :=
  (m.find? fun e => decide (e.1 = k)).map (·.2)

/-- Token usage reported by the completion provider. -/
structure TokenUsage where
  input : Nat
  output : Nat
  total : Nat
  deriving Repr, DecidableEq

/-- A successful completion-provider response. -/
structure ProviderResult where
  content : String
  tokens : TokenUsage
  cost : Int
  deriving Repr, DecidableEq

/-- Oracle for the external completion provider
`unbound.call(prompt, model, context)`: indexed by step index and attempt
number so that different calls may answer differently; `.error msg` models
a thrown error (after the provider's own internal retries). -/
abbrev ProviderOracle :=
  Nat → Nat → String → String → String → Except String ProviderResult

/-- Oracle for the LLM judge calls
`unbound.call(evalPrompt, 'kimi-k2-instruct-0905')` made by the `llm`
criterion, indexed like `ProviderOracle`; the value is the reply content. -/
abbrev JudgeOracle := Nat → Nat → String → Except String String

/-- Oracle for dynamic regex compilation (see `evaluateRegex`). -/
abbrev RegexOracle := String → String → Except String Bool

/-- The state of the retry loop of `executeSteps`
(`passed` / `lastOutput` / `lastError` / `attempts` / `stepCost` /
`stepTokens`). -/
structure AttemptState where
  passed : Bool
  lastOutput : String
  lastError : String
  attempts : Nat
  stepCost : Int
  stepTokens : Nat
  deriving Repr, DecidableEq

/-- The initial attempt-loop state. -/
def initAttemptState : AttemptState :=
  { passed := false, lastOutput := "", lastError := "", attempts := 0,
    stepCost := 0, stepTokens := 0 }

/-- The retry loop `while (!passed && attempts < step.retry_limit)` of
`executeSteps` (lines 335–405); `fuel` is the number of attempts still
allowed.  Each attempt renders the prompt, computes the out-of-band
context, calls the provider, and on success evaluates the criteria (with a
judge capability exactly when the criteria type is `llm`); a thrown
provider error is caught and recorded like a criteria failure. -/
def runAttemptsAux (po : ProviderOracle) (jo : JudgeOracle) (ro : RegexOracle)
    (stepIdx : Nat) (step : Step) (previousContext : String) :
    Nat → AttemptState → AttemptState
  | 0, st => st
  | fuel + 1, st =>
    if st.passed then st
    else
      let attempts := st.attempts + 1
      let prompt := renderPrompt step.prompt previousContext
      let ctxArg := contextToPass prompt previousContext
      match po stepIdx attempts prompt step.model ctxArg with
      | .error msg =>
        runAttemptsAux po jo ro stepIdx step previousContext fuel
          { st with attempts := attempts, lastError := msg }
      | .ok res =>
        let st :=
          { st with attempts := attempts, lastOutput := res.content,
                    stepCost := st.stepCost + res.cost,
                    stepTokens := st.stepTokens + res.tokens.total }
        let judge : Option (String → Except String String) :=
          if step.criteria_type = "llm" then some fun p => jo stepIdx attempts p
          else none
        let evaluation :=
          evaluateCriteria ro judge res.content step.criteria_type step.criteria_value
        if evaluation.passed then { st with passed := true }
        else
          runAttemptsAux po jo ro stepIdx step previousContext fuel
            { st with lastError := evaluation.reason }

/-- The whole attempt loop for one step. -/
def runAttempts (po : ProviderOracle) (jo : JudgeOracle) (ro : RegexOracle)
    (stepIdx : Nat) (step : Step) (previousContext : String) : AttemptState :=
  runAttemptsAux po jo ro stepIdx step previousContext step.retry_limit initAttemptState

/-- Model of `WorkflowExecutor.completeRun`: mark the run `completed` with its final
totals and deregister it from the active-run table (event broadcast is
fire-and-forget and external). -/
def completeRun (runId : Nat) (totalCost : Int) (totalTokens : Nat) :
    DB × Engine → DB × Engine
  | (db, eng) =>
    (updateRun db runId fun r =>
       { r with status := "completed", total_cost := totalCost, total_tokens := totalTokens },
     { eng with activeRuns := mapDelete eng.activeRuns runId })

/-- Model of `WorkflowExecutor.failRun`: mark the run `failed` with its final totals
and deregister it (the error text is only broadcast, which is external). -/
def failRun (runId : Nat) (_err : String) (totalCost : Int) (totalTokens : Nat) :
    DB × Engine → DB × Engine
  | (db, eng) =>
    (updateRun db runId fun r =>
       { r with status := "failed", total_cost := totalCost, total_tokens := totalTokens },
     { eng with activeRuns := mapDelete eng.activeRuns runId })

/-- The sequential step loop of `WorkflowExecutor.executeSteps`
(lines 302–449): for each step, mark its execution record `running` with
the incoming context, run the attempt loop, persist the terminal record,
and either continue with the extracted context or fail the whole run.  A
missing step-execution record makes the JavaScript body throw
(`stepExec.id` on `null`); the `.catch` boundary installed by `execute`
turns that into `failRun`, which the `none` branch models. -/
def execLoop (po : ProviderOracle) (jo : JudgeOracle) (ro : RegexOracle)
    (runId : Nat) :
    Nat → String → Int → Nat → List Step → DB × Engine → DB × Engine
  | _, _, totalCost, totalTokens, [], st => completeRun runId totalCost totalTokens st
  | i, previousContext, totalCost, totalTokens, step :: rest, (db, eng) =>
    match getStepExecution db runId step.id with
    | none =>
      failRun runId "Cannot read properties of null" totalCost totalTokens (db, eng)
    | some stepExec =>
      let db := updateStepExecution db stepExec.id fun se =>
        { se with status := "running", input_context := some previousContext }
      let r := runAttempts po jo ro i step previousContext
      let db := updateStepExecution db stepExec.id fun se =>
        { se with
            status := if r.passed then "passed" else "failed",
            attempts := r.attempts,
            output := some r.lastOutput,
            error := if r.passed then none else some r.lastError,
            tokens_used := r.stepTokens,
            cost := r.stepCost }
      let totalCost := totalCost + r.stepCost
      let totalTokens := totalTokens + r.stepTokens
      if r.passed then
        execLoop po jo ro runId (i + 1) (extractContext r.lastOutput step.context_mode)
          totalCost totalTokens rest (db, eng)
      else
        failRun runId ("Step \"" ++ step.name ++ "\" failed: " ++ r.lastError)
          totalCost totalTokens (db, eng)

/-- Model of `WorkflowExecutor.executeSteps(runId, steps)`: the loop started with
empty context and zero totals. -/
def executeSteps (po : ProviderOracle) (jo : JudgeOracle) (ro : RegexOracle)
    (runId : Nat) (steps : List Step) : DB × Engine → DB × Engine :=
  execLoop po jo ro runId 0 "" 0 0 steps

/-- Model of `WorkflowExecutor.execute(workflowId)` up to its synchronous return:
reject a missing or stepless workflow before touching any state; otherwise
create the run record, one pending step-execution record per step, and the
active-run entry, and return the run id (the asynchronous step processing
is modelled separately by `executeAndRun`). -/
def execute (st : DB × Engine) (workflowId : Nat) :
    Except String Nat × (DB × Engine) :=
  match getWorkflow st.1 workflowId with
  | none => (.error "Workflow not found", st)
  | some _ =>
    let steps := getWorkflowSteps st.1 workflowId
    if steps.isEmpty then (.error "Workflow has no steps", st)
    else
      let (run, db) := createRun st.1 workflowId
      let db := steps.foldl (fun d s => (createStepExecution d run.id s.id).2) db
      let eng :=
        { st.2 with
          activeRuns := mapSet st.2.activeRuns run.id ⟨workflowId, "running"⟩ }
      (.ok run.id, (db, eng))

/-- Model of `execute` followed by the background `executeSteps(run.id, steps)`
run to completion (with `steps` captured before the run records were
created, as in the source). -/
def executeAndRun (po : ProviderOracle) (jo : JudgeOracle) (ro : RegexOracle)
    (st : DB × Engine) (workflowId : Nat) :
    Except String Nat × (DB × Engine) :=
  match execute st workflowId with
  | (.error e, st') => (.error e, st')
  | (.ok runId, st') =>
    (.ok runId, executeSteps po jo ro runId (getWorkflowSteps st.1 workflowId) st')

/-- Model of `WorkflowExecutor.getRunStatus(runId)`. -/
def getRunStatus (eng : Engine) (runId : Nat) : Option ActiveRun :=
  mapGet eng.activeRuns runId

/-! ## Derived characterization of a run

`stepOutcome`/`stepsOutcome` compute, purely from the oracles, what each
step's terminal record will contain; the characterization lemmas below
prove that `execLoop` writes exactly these values into the database. -/

/-- The values the engine persists for one executed step. -/
structure StepOutcome where
  step_id : Nat
  passed : Bool
  attempts : Nat
  input_context : String
  output : String
  error : Option String
  tokens : Nat
  cost : Int
  deriving Repr, DecidableEq

/-- The outcome of one step's attempt loop, run with context `prevCtx`. -/
def stepOutcome (po : ProviderOracle) (jo : JudgeOracle) (ro : RegexOracle)
    (i : Nat) (prevCtx : String) (step : Step) : StepOutcome :=
  let r := runAttempts po jo ro i step prevCtx
  { step_id := step.id, passed := r.passed, attempts := r.attempts,
    input_context := prevCtx, output := r.lastOutput,
    error := if r.passed then none else some r.lastError,
    tokens := r.stepTokens, cost := r.stepCost }

/-- The outcomes of the sequential step loop: one outcome per executed
step, stopping after the first failed one. -/
def stepsOutcome (po : ProviderOracle) (jo : JudgeOracle) (ro : RegexOracle) :
    Nat → String → List Step → List StepOutcome
  | _, _, [] => []
  | i, prevCtx, step :: rest =>
    let o := stepOutcome po jo ro i prevCtx step
    if o.passed then
      o :: stepsOutcome po jo ro (i + 1) (extractContext o.output step.context_mode) rest
    else o :: []

/-- Write an outcome's terminal fields into a step-execution record (the
composition of the engine's two `updateStepExecution` calls for a step). -/
def applyOutcome (se : StepExecution) (o : StepOutcome) : StepExecution :=
  { se with
      status := if o.passed then "passed" else "failed",
      attempts := o.attempts, input_context := some o.input_context,
      output := some o.output, error := o.error,
      tokens_used := o.tokens, cost := o.cost }

/-- Apply the computed outcomes position-wise; records beyond the outcomes
(steps never reached) stay untouched. -/
def zipApply : List StepExecution → List StepOutcome → List StepExecution
  | recs, [] => recs
  | [], _ :: _ => []
  | se :: recs, o :: outs => applyOutcome se o :: zipApply recs outs

/-- All outcomes passed. -/
def outcomesPassed (outs : List StepOutcome) : Bool :=
  outs.all (·.passed)

/-- Total cost of the outcomes. -/
def sumCost (outs : List StepOutcome) : Int :=
  (outs.map (·.cost)).sum

/-- Total token count of the outcomes. -/
def sumTokens (outs : List StepOutcome) : Nat :=
  (outs.map (·.tokens)).sum

/-- A freshly created pending record for step `s` of run `runId`. -/
def recMatches (runId : Nat) (s : Step) (se : StepExecution) : Prop :=
  se.run_id = runId ∧ se.step_id = s.id ∧ se.status = "pending"

/-- The step-execution records of one run, in table order (creation
order, which is step order). -/
def runExecs (db : DB) (runId : Nat) : List StepExecution :=
  db.step_executions.filter fun se => decide (se.run_id = runId)

/-- The records that `execute`'s `forEach` loop creates, with consecutive
fresh ids starting at `startId`. -/
def mkPendingRecs (runId : Nat) : Nat → List Step → List StepExecution
  | _, [] => []
  | startId, s :: rest =>
    { id := startId, run_id := runId, step_id := s.id, status := "pending",
      attempts := 0, input_context := none, output := none, error := none,
      tokens_used := 0, cost := 0 } :: mkPendingRecs runId (startId + 1) rest

/-- Well-formedness of the database: the fresh-id counter dominates every
stored id (as `uuidv4` guarantees distinct ids), stored ids are distinct,
and step ids are distinct. -/
def DBwf (db : DB) : Prop :=
  (∀ e ∈ db.step_executions, e.id < db.nextId ∧ e.run_id < db.nextId) ∧
  (∀ r ∈ db.runs, r.id < db.nextId) ∧
  (db.steps.map (·.id)).Nodup ∧
  (db.step_executions.map (·.id)).Nodup

/-- The context-propagation contract of a run: the first executed step
receives `ctx` (initially the empty string), and whenever a step passed,
the next step's recorded `input_context` is `extractContext` of the passed
step's output under its context mode. -/
def ContextChain (ctx : String) : List Step → List StepExecution → Prop
  | s :: ss, e :: es =>
    (e.status ≠ "pending" → e.input_context = some ctx) ∧
    (e.status = "passed" →
      ∃ o, e.output = some o ∧ ContextChain (extractContext o s.context_mode) ss es)
  | _, _ => True

/-- A regex oracle used only to instantiate oracle parameters at concrete
inputs whose evaluation never consults it. -/
def regexOracleUnused : RegexOracle := fun _ _ => Except.error "unused"

instance (db : DB) : Decidable (DBwf db) := by
  unfold DBwf
  infer_instance

/-! ### Concrete fixtures for evaluating the engine at closed inputs -/

/-- A provider oracle that always answers `hello world`. -/
def poFix : ProviderOracle := fun _ _ _ _ _ =>
  .ok { content := "hello world", tokens := ⟨1, 1, 2⟩, cost := 1 }

/-- A judge oracle never consulted by the fixtures. -/
def joFix : JudgeOracle := fun _ _ _ => .error "unused"

/-- A concrete workflow. -/
def wfFix : Workflow := ⟨0, "wf", "test workflow"⟩

/-- First fixture step: criterion `always`. -/
def stepFix1 : Step := ⟨1, 0, 0, "one", "m", "p", "always", "", 3, "full"⟩

/-- Second fixture step: criterion `contains hello`. -/
def stepFix2 : Step := ⟨2, 0, 1, "two", "m", "q", "contains", "hello", 2, "full"⟩

/-- A concrete database holding the fixture workflow and its two steps. -/
def dbFix : DB := ⟨[wfFix], [stepFix1, stepFix2], [], [], 3⟩

/-- An engine with no active runs. -/
def engFix : Engine := ⟨[]⟩

/-- The database after running the fixture workflow to completion. -/
def db1Fix : DB :=
  { workflows := [wfFix], steps := [stepFix1, stepFix2],
    runs := [⟨3, 0, "completed", 2, 4⟩],
    step_executions :=
      [⟨4, 3, 1, "passed", 1, some "", some "hello world", none, 2, 1⟩,
       ⟨5, 3, 2, "passed", 1, some "hello world", some "hello world", none, 2, 1⟩],
    nextId := 6 }

/-- The engine after the fixture run terminates (registry empty again). -/
def eng1Fix : Engine := ⟨[]⟩

/-! ## General lemmas on the string primitives -/

theorem containsSubstrL_nil (hay : List Char) : containsSubstrL hay [] = true := by
  cases hay <;> simp [containsSubstrL, isPre]

theorem isPre_append (p rest : List Char) : isPre p (p ++ rest) = true := by
  induction p with
  | nil => rfl
  | cons a as ih => simp [isPre, ih]

theorem containsSubstrL_of_isPre {n s : List Char} (h : isPre n s = true) :
    containsSubstrL s n = true := by
  cases s with
  | nil =>
    cases n with
    | nil => rfl
    | cons a as => simp [isPre] at h
  | cons c t => simp [containsSubstrL, h]

theorem containsSubstrL_cons_of (c : Char) {t n : List Char}
    (h : containsSubstrL t n = true) : containsSubstrL (c :: t) n = true := by
  simp [containsSubstrL, h]

theorem containsSubstrL_append_left (pre : List Char) {s n : List Char}
    (h : containsSubstrL s n = true) : containsSubstrL (pre ++ s) n = true := by
  induction pre with
  | nil => exact h
  | cons c cs ih => exact containsSubstrL_cons_of c ih

theorem expandRepl_no_dollar (pre post : List Char) :
    ∀ l : List Char, l.all (· ≠ '$') = true → expandRepl pre post l = l := by
  intro l
  induction l with
  | nil => intro _; rfl
  | cons c t ih =>
    intro h
    simp only [List.all_cons, Bool.and_eq_true, decide_eq_true_eq] at h
    rw [expandRepl.eq_def]
    simp [h.1, ih h.2]

theorem jsReplaceCtxAux_eq_lit (ctx : List Char) (hctx : ctx.all (· ≠ '$') = true) :
    ∀ (f : Nat) (pre s : List Char), jsReplaceCtxAux ctx f pre s = replaceCtxLit ctx f s := by
  intro f
  induction f with
  | zero => intro pre s; rfl
  | succ f ih =>
    intro pre s
    cases s with
    | nil => rfl
    | cons c rest =>
      simp only [jsReplaceCtxAux, replaceCtxLit]
      by_cases hp : isPre contextPat (c :: rest) = true
      · simp [hp, expandRepl_no_dollar _ _ ctx hctx, ih]
      · simp [hp, ih]

theorem replaceCtxLit_contains (ctx : List Char) :
    ∀ (f : Nat) (s : List Char), s.length ≤ f → containsSubstrL s contextPat = true →
      containsSubstrL (replaceCtxLit ctx f s) ctx = true := by
  intro f
  induction f with
  | zero =>
    intro s hlen hc
    cases s with
    | nil => simp [containsSubstrL, contextPat] at hc
    | cons c rest => simp at hlen
  | succ f ih =>
    intro s hlen hc
    cases s with
    | nil => simp [containsSubstrL, contextPat] at hc
    | cons c rest =>
      simp only [replaceCtxLit]
      by_cases hp : isPre contextPat (c :: rest) = true
      · rw [if_pos hp]
        exact containsSubstrL_of_isPre (isPre_append ctx _)
      · rw [if_neg hp]
        simp only [containsSubstrL, Bool.or_eq_true] at hc
        rcases hc with hc | hc
        · exact absurd hc hp
        · exact containsSubstrL_cons_of c
            (ih rest (by simpa using Nat.le_of_succ_le_succ hlen) hc)

/-- The engine's rendering agrees with the spec's literal every-occurrence
substitution whenever `previousContext` is non-empty, dollar-free, and the
template contains the placeholder. -/
theorem renderPrompt_eq_lit (tmpl ctx : String) (hne : ctx ≠ "")
    (hnd : noDollar ctx = true) (hcon : containsSubstr tmpl ⟨contextPat⟩ = true) :
    renderPrompt tmpl ctx = replaceContextSpec tmpl ctx := by
  unfold renderPrompt
  have hemp : ctx.isEmpty = false := by
    rcases h : ctx.isEmpty with _ | _
    · rfl
    · exact absurd ((String.isEmpty_iff ctx).mp (by simp [h])) hne
  rw [if_pos (by simp [hemp, hcon])]
  exact congrArg String.mk (jsReplaceCtxAux_eq_lit ctx.data hnd _ _ _)

/-- The engine leaves the prompt unmodified when the context is empty or
the template has no placeholder. -/
theorem renderPrompt_no_sub (tmpl ctx : String)
    (h : ctx = "" ∨ containsSubstr tmpl ⟨contextPat⟩ = false) :
    renderPrompt tmpl ctx = tmpl := by
  unfold renderPrompt
  rcases h with rfl | hcon
  · have h0 : ("" : String).isEmpty = true := rfl
    simp [h0]
  · simp [hcon]

/-- The out-of-band context argument is empty exactly when the rendered
prompt contains `previousContext` as a substring. -/
theorem contextToPass_empty_iff (p ctx : String) :
    contextToPass p ctx = "" ↔ containsSubstr p ctx = true := by
  unfold contextToPass
  by_cases hc : containsSubstr p ctx = true
  · simp [hc]
  · rw [if_neg hc]
    constructor
    · intro h
      subst h
      exact absurd (containsSubstrL_nil p.data) (by simpa [containsSubstr] using hc)
    · intro h; exact absurd h hc

/-- After a literal substitution, the substituted text occurs in the
result. -/
theorem replaceContextSpec_contains (tmpl ctx : String)
    (hcon : containsSubstr tmpl ⟨contextPat⟩ = true) :
    containsSubstr (replaceContextSpec tmpl ctx) ctx = true := by
  unfold replaceContextSpec containsSubstr
  exact replaceCtxLit_contains ctx.data tmpl.data.length tmpl.data (Nat.le_refl _)
    (by simpa [containsSubstr] using hcon)

/-- A string is non-empty iff its `isEmpty` test is `false`. -/
theorem isEmpty_false_of_ne {s : String} (h : s ≠ "") : s.isEmpty = false := by
  cases he : s.isEmpty
  · rfl
  · exact absurd ((String.isEmpty_iff s).mp (by simp [he])) h

/-! ## Engine lemmas -/

theorem runAttemptsAux_attempts_le (po : ProviderOracle) (jo : JudgeOracle)
    (ro : RegexOracle) (i : Nat) (step : Step) (ctx : String) :
    ∀ (fuel : Nat) (st : AttemptState),
      (runAttemptsAux po jo ro i step ctx fuel st).attempts ≤ st.attempts + fuel := by
  intro fuel
  induction fuel with
  | zero => intro st; simp [runAttemptsAux]
  | succ f ih =>
    intro st
    simp only [runAttemptsAux]
    repeat' split
    all_goals
      first
        | (refine Nat.le_trans (ih _) ?_ ; simp ; try omega
           done)
        | (simp ; try omega
           done)
        | omega

theorem runAttemptsAux_attempts_mono (po : ProviderOracle) (jo : JudgeOracle)
    (ro : RegexOracle) (i : Nat) (step : Step) (ctx : String) :
    ∀ (fuel : Nat) (st : AttemptState),
      st.attempts ≤ (runAttemptsAux po jo ro i step ctx fuel st).attempts := by
  intro fuel
  induction fuel with
  | zero => intro st; simp [runAttemptsAux]
  | succ f ih =>
    intro st
    simp only [runAttemptsAux]
    repeat' split
    all_goals
      first
        | (refine Nat.le_trans ?_ (ih _) ; simp ; try omega
           done)
        | (simp ; try omega
           done)
        | omega

theorem runAttempts_bounds (po : ProviderOracle) (jo : JudgeOracle)
    (ro : RegexOracle) (i : Nat) (step : Step) (ctx : String)
    (h : 1 ≤ step.retry_limit) :
    1 ≤ (runAttempts po jo ro i step ctx).attempts ∧
      (runAttempts po jo ro i step ctx).attempts ≤ step.retry_limit := by
  constructor
  · unfold runAttempts
    obtain ⟨f, hf⟩ : ∃ f, step.retry_limit = f + 1 :=
      ⟨step.retry_limit - 1, by omega⟩
    rw [hf]
    have hmono := runAttemptsAux_attempts_mono po jo ro i step ctx f
    simp only [runAttemptsAux, initAttemptState]
    repeat' split
    all_goals
      first
        | (simp ; try omega
           done)
        | (refine Nat.le_trans ?_ (hmono _) ; simp ; try omega
           done)
        | (exfalso ; simp_all
           done)
        | omega
  · have := runAttemptsAux_attempts_le po jo ro i step ctx step.retry_limit initAttemptState
    simpa [runAttempts, initAttemptState] using this

theorem updateFirst_append_of_none {p : α → Bool} {f : α → α} {l1 : List α}
    (l2 : List α) (h : ∀ y ∈ l1, p y = false) :
    updateFirst p f (l1 ++ l2) = l1 ++ updateFirst p f l2 := by
  induction l1 with
  | nil => rfl
  | cons x xs ih =>
    simp only [List.cons_append, updateFirst]
    rw [h x (by simp)]
    simp only [Bool.false_eq_true, if_false, List.cons.injEq, true_and]
    exact ih fun y hy => h y (by simp [hy])

theorem updateFirst_cons_pos {p : α → Bool} {f : α → α} {x : α} (l : List α)
    (h : p x = true) : updateFirst p f (x :: l) = f x :: l := by
  simp [updateFirst, h]

theorem insertByLe_perm (le : α → α → Bool) (x : α) :
    ∀ l : List α, (insertByLe le x l).Perm (x :: l) := by
  intro l
  induction l with
  | nil => simp [insertByLe]
  | cons y ys ih =>
    simp only [insertByLe]
    split
    · exact List.Perm.refl _
    · exact ((ih.cons y).trans (List.Perm.swap x y ys))

theorem stableSortByLe_perm (le : α → α → Bool) :
    ∀ l : List α, (stableSortByLe le l).Perm l := by
  intro l
  induction l with
  | nil => exact List.Perm.refl _
  | cons x xs ih =>
    simp only [stableSortByLe]
    exact (insertByLe_perm le x _).trans (ih.cons x)

theorem getWorkflowSteps_nodup (db : DB) (wid : Nat)
    (h : (db.steps.map (·.id)).Nodup) :
    ((getWorkflowSteps db wid).map (·.id)).Nodup := by
  unfold getWorkflowSteps
  have hperm :=
    (stableSortByLe_perm (fun a b => decide (a.order_index ≤ b.order_index))
      (db.steps.filter fun s => decide (s.workflow_id = wid))).map (·.id)
  rw [hperm.nodup_iff]
  exact h.sublist ((List.filter_sublist db.steps).map _)

theorem mkPendingRecs_forall2 (runId : Nat) :
    ∀ (ss : List Step) (n : Nat),
      List.Forall₂ (recMatches runId) ss (mkPendingRecs runId n ss) := by
  intro ss
  induction ss with
  | nil => intro n; exact List.Forall₂.nil
  | cons s rest ih =>
    intro n
    exact List.Forall₂.cons ⟨rfl, rfl, rfl⟩ (ih (n + 1))

theorem mkPendingRecs_map_id (runId : Nat) :
    ∀ (ss : List Step) (n : Nat),
      (mkPendingRecs runId n ss).map (·.id) = List.range' n ss.length := by
  intro ss
  induction ss with
  | nil => intro n; rfl
  | cons s rest ih =>
    intro n
    simp [mkPendingRecs, ih (n + 1), List.range']

theorem foldl_createStepExec (runId : Nat) :
    ∀ (ss : List Step) (db : DB),
      ss.foldl (fun d s => (createStepExecution d runId s.id).2) db =
        { db with
            step_executions := db.step_executions ++ mkPendingRecs runId db.nextId ss,
            nextId := db.nextId + ss.length } := by
  intro ss
  induction ss with
  | nil => intro db; simp [mkPendingRecs]
  | cons s rest ih =>
    intro db
    rw [List.foldl_cons, ih]
    simp [createStepExecution, mkPendingRecs, Nat.add_assoc, Nat.add_comm 1]

/-- The central characterization of the step loop: under the freshness and
alignment conditions that `execute` establishes, `execLoop` rewrites the
pending records of the run to the computed outcomes, sets the run's status
to `completed` or `failed` according to whether every outcome passed, adds
the accumulated totals, and deletes the run from the active-run table. -/
theorem execLoop_characterization (po : ProviderOracle) (jo : JudgeOracle)
    (ro : RegexOracle) (runId : Nat) :
    ∀ (ss : List Step) (recs : List StepExecution) (i : Nat) (ctx : String)
      (tc : Int) (tt : Nat) (db : DB) (eng : Engine)
      (base : List StepExecution) (runsPre runsPost : List Run) (r : Run),
      db.step_executions = base ++ recs →
      List.Forall₂ (recMatches runId) ss recs →
      (∀ e ∈ base, e.run_id = runId → e.step_id ∉ ss.map (·.id)) →
      (((base ++ recs).map (·.id)).Nodup) →
      ((ss.map (·.id)).Nodup) →
      db.runs = runsPre ++ r :: runsPost →
      r.id = runId →
      (∀ r' ∈ runsPre, r'.id ≠ runId) →
      execLoop po jo ro runId i ctx tc tt ss (db, eng) =
        ({ db with
            step_executions := base ++ zipApply recs (stepsOutcome po jo ro i ctx ss),
            runs := runsPre ++
              { r with
                  status :=
                    if outcomesPassed (stepsOutcome po jo ro i ctx ss) then "completed"
                    else "failed",
                  total_cost := tc + sumCost (stepsOutcome po jo ro i ctx ss),
                  total_tokens := tt + sumTokens (stepsOutcome po jo ro i ctx ss) } ::
              runsPost },
         { eng with activeRuns := mapDelete eng.activeRuns runId }) := by
  intro ss
  induction ss with
  | nil =>
    intro recs i ctx tc tt db eng base runsPre runsPost r hse hal hbase hids hssid hruns
      hrid hpre
    cases hal
    simp only [execLoop, completeRun, stepsOutcome, zipApply, outcomesPassed, sumCost,
      sumTokens, List.all_nil, List.map_nil, List.sum_nil, if_true]
    unfold updateRun
    rw [hruns, updateFirst_append_of_none _ (fun y hy => by simp [hpre y hy]),
      updateFirst_cons_pos _ (by simp [hrid])]
    rw [List.append_nil] at hse
    simp [hse, add_zero]
  | cons s ss ih =>
    intro recs i ctx tc tt db eng base runsPre runsPost r hse hal hbase hids hssid hruns
      hrid hpre
    cases hal with
    | @cons _ se _ recs' hm hal' =>
    obtain ⟨hm1, hm2, hm3⟩ := hm
    have hid_base : ∀ e ∈ base, e.id ≠ se.id := by
      intro e he heq
      rw [List.map_append, List.nodup_append] at hids
      exact hids.2.2 (List.mem_map_of_mem _ he) (by simp [heq])
    have hfind : getStepExecution db runId s.id = some se := by
      unfold getStepExecution
      rw [hse, List.find?_append]
      have h1 : (base.find? fun e => decide (e.run_id = runId) && decide (e.step_id = s.id))
          = none := by
        rw [List.find?_eq_none]
        intro e he
        simp only [Bool.and_eq_true, decide_eq_true_eq, not_and]
        intro hrun hstep
        exact hbase e he hrun (by simp [hstep])
      rw [h1]
      simp [List.find?_cons, hm1, hm2]
    have hop : (stepOutcome po jo ro i ctx s).passed = (runAttempts po jo ro i s ctx).passed :=
      rfl
    simp only [execLoop, hfind]
    have hupd1 :
        (updateStepExecution db se.id fun e =>
          { e with status := "running", input_context := some ctx }).step_executions =
        base ++ ({ se with status := "running", input_context := some ctx } :: recs') := by
      unfold updateStepExecution
      rw [hse, updateFirst_append_of_none _ (fun y hy => by simp [hid_base y hy]),
        updateFirst_cons_pos _ (by simp)]
    have hupd2 : (updateStepExecution
        (updateStepExecution db se.id fun e =>
          { e with status := "running", input_context := some ctx }) se.id fun e =>
          { e with
              status := if (runAttempts po jo ro i s ctx).passed = true then "passed" else "failed",
              attempts := (runAttempts po jo ro i s ctx).attempts,
              output := some (runAttempts po jo ro i s ctx).lastOutput,
              error := if (runAttempts po jo ro i s ctx).passed = true then none
                else some (runAttempts po jo ro i s ctx).lastError,
              tokens_used := (runAttempts po jo ro i s ctx).stepTokens,
              cost := (runAttempts po jo ro i s ctx).stepCost }).step_executions =
        (base ++ [applyOutcome se (stepOutcome po jo ro i ctx s)]) ++ recs' := by
      conv_lhs => rw [updateStepExecution]
      rw [hupd1, updateFirst_append_of_none _ (fun y hy => by simp [hid_base y hy]),
        updateFirst_cons_pos _ (by simp)]
      simp [applyOutcome, stepOutcome, runAttempts]
    have hruns2 : (updateStepExecution
        (updateStepExecution db se.id fun e =>
          { e with status := "running", input_context := some ctx }) se.id fun e =>
          { e with
              status := if (runAttempts po jo ro i s ctx).passed = true then "passed" else "failed",
              attempts := (runAttempts po jo ro i s ctx).attempts,
              output := some (runAttempts po jo ro i s ctx).lastOutput,
              error := if (runAttempts po jo ro i s ctx).passed = true then none
                else some (runAttempts po jo ro i s ctx).lastError,
              tokens_used := (runAttempts po jo ro i s ctx).stepTokens,
              cost := (runAttempts po jo ro i s ctx).stepCost }).runs =
        runsPre ++ r :: runsPost := by
      simpa [updateStepExecution] using hruns
    by_cases hp : (runAttempts po jo ro i s ctx).passed = true
    · rw [if_pos hp]
      have hp' : (stepOutcome po jo ro i ctx s).passed = true := hop.trans hp
      have hsteps_out : stepsOutcome po jo ro i ctx (s :: ss) =
          stepOutcome po jo ro i ctx s ::
            stepsOutcome po jo ro (i + 1)
              (extractContext (runAttempts po jo ro i s ctx).lastOutput s.context_mode) ss := by
        simp only [stepsOutcome]
        rw [if_pos hp']
        rfl
      have hbase' : ∀ e ∈ base ++ [applyOutcome se (stepOutcome po jo ro i ctx s)],
          e.run_id = runId → e.step_id ∉ List.map (fun x => x.id) ss := by
        intro e he hrun
        rcases List.mem_append.mp he with he | he
        · intro hmem
          exact hbase e he hrun (by simp [hmem])
        · rw [List.mem_singleton.mp he]
          have : (applyOutcome se (stepOutcome po jo ro i ctx s)).step_id = s.id := hm2
          rw [this]
          rw [List.map_cons, List.nodup_cons] at hssid
          exact hssid.1
      have hids' :
          (((base ++ [applyOutcome se (stepOutcome po jo ro i ctx s)]) ++ recs').map
            (fun x => x.id)).Nodup := by
        simpa [applyOutcome, List.append_assoc] using hids
      have hssid' : (List.map (fun x => x.id) ss).Nodup := by
        rw [List.map_cons, List.nodup_cons] at hssid
        exact hssid.2
      rw [ih recs' (i + 1)
        (extractContext (runAttempts po jo ro i s ctx).lastOutput s.context_mode)
        (tc + (runAttempts po jo ro i s ctx).stepCost)
        (tt + (runAttempts po jo ro i s ctx).stepTokens) _ eng
        (base ++ [applyOutcome se (stepOutcome po jo ro i ctx s)]) runsPre runsPost r
        hupd2 hal' hbase' hids' hssid' hruns2 hrid hpre]
      rw [hsteps_out]
      simp only [updateStepExecution, zipApply, outcomesPassed, List.all_cons, hp',
        Bool.true_and, sumCost, sumTokens, List.map_cons, List.sum_cons, List.append_assoc,
        List.singleton_append, add_assoc]
      rfl
    · rw [if_neg hp]
      rw [Bool.not_eq_true] at hp
      have hp' : (stepOutcome po jo ro i ctx s).passed = false := hop.trans hp
      have hsteps_out : stepsOutcome po jo ro i ctx (s :: ss) =
          stepOutcome po jo ro i ctx s :: [] := by
        simp only [stepsOutcome]
        rw [if_neg (by simp [hp'])]
      rw [hsteps_out]
      simp only [failRun]
      unfold updateRun
      rw [hruns2, updateFirst_append_of_none _ (fun y hy => by simp [hpre y hy]),
        updateFirst_cons_pos _ (by simp [hrid])]
      rw [hupd2]
      simp only [updateStepExecution, zipApply, outcomesPassed, List.all_cons, List.all_nil,
        hp', Bool.and_true, Bool.false_eq_true, if_false, sumCost, sumTokens, List.map_cons,
        List.map_nil, List.sum_cons, List.sum_nil, add_zero, List.append_assoc,
        List.singleton_append]
      rfl

theorem mapDelete_mapSet_self (m : List (Nat × ActiveRun)) (k : Nat) (v : ActiveRun) :
    mapDelete (mapSet m k v) k = mapDelete m k := by
  simp only [mapDelete, mapSet, List.filter_cons]
  rw [List.filter_filter]
  simp

/-- What `execute` does on the happy path: create the run record and the
pending step-execution records with consecutive fresh ids, and register
the run as `running`. -/
theorem execute_ok_char (db0 : DB) (eng0 : Engine) (wid : Nat) (w : Workflow)
    (hw : getWorkflow db0 wid = some w) (hne : getWorkflowSteps db0 wid ≠ []) :
    execute (db0, eng0) wid =
      (.ok db0.nextId,
        ({ workflows := db0.workflows, steps := db0.steps,
           runs := db0.runs ++
             [{ id := db0.nextId, workflow_id := wid, status := "running",
                total_cost := 0, total_tokens := 0 }],
           step_executions := db0.step_executions ++
             mkPendingRecs db0.nextId (db0.nextId + 1) (getWorkflowSteps db0 wid),
           nextId := db0.nextId + 1 + (getWorkflowSteps db0 wid).length },
         { eng0 with
           activeRuns := mapSet eng0.activeRuns db0.nextId ⟨wid, "running"⟩ })) := by
  unfold execute
  dsimp only
  rw [hw]
  dsimp only
  rw [if_neg (by simpa [List.isEmpty_iff] using hne)]
  dsimp only [createRun]
  rw [foldl_createStepExec]

/-- The composite `executeAndRun` on a well-formed database: the run id is
the fresh id, the final database holds the run with its computed terminal
status and totals plus the outcome-updated step-execution records, and the
run is deregistered. -/
theorem executeAndRun_ok (po : ProviderOracle) (jo : JudgeOracle) (ro : RegexOracle)
    (db0 : DB) (eng0 : Engine) (wid runId : Nat) (db1 : DB) (eng1 : Engine)
    (hwf : DBwf db0)
    (h : executeAndRun po jo ro (db0, eng0) wid = (.ok runId, (db1, eng1))) :
    runId = db0.nextId ∧
    getWorkflowSteps db0 wid ≠ [] ∧
    db1 = { workflows := db0.workflows, steps := db0.steps,
            runs := db0.runs ++
              [{ id := runId, workflow_id := wid,
                 status :=
                   if outcomesPassed (stepsOutcome po jo ro 0 "" (getWorkflowSteps db0 wid))
                   then "completed" else "failed",
                 total_cost :=
                   0 + sumCost (stepsOutcome po jo ro 0 "" (getWorkflowSteps db0 wid)),
                 total_tokens :=
                   0 + sumTokens (stepsOutcome po jo ro 0 "" (getWorkflowSteps db0 wid)) }],
            step_executions := db0.step_executions ++
              zipApply (mkPendingRecs runId (db0.nextId + 1) (getWorkflowSteps db0 wid))
                (stepsOutcome po jo ro 0 "" (getWorkflowSteps db0 wid)),
            nextId := db0.nextId + 1 + (getWorkflowSteps db0 wid).length } ∧
    eng1.activeRuns = mapDelete eng0.activeRuns runId := by
  unfold executeAndRun at h
  cases hw : getWorkflow db0 wid with
  | none =>
    rw [show execute (db0, eng0) wid = (.error "Workflow not found", (db0, eng0)) from by
      unfold execute
      rw [show ((db0, eng0) : DB × Engine).1 = db0 from rfl, hw]] at h
    simp at h
  | some w =>
    by_cases hne : getWorkflowSteps db0 wid = []
    · rw [show execute (db0, eng0) wid = (.error "Workflow has no steps", (db0, eng0)) from by
        unfold execute
        rw [show ((db0, eng0) : DB × Engine).1 = db0 from rfl, hw,
          if_pos (by simp [List.isEmpty_iff, hne])]] at h
      simp at h
    · rw [execute_ok_char db0 eng0 wid w hw hne] at h
      dsimp only at h
      rw [Prod.mk.injEq] at h
      obtain ⟨h1, h2⟩ := h
      rw [Except.ok.injEq] at h1
      subst h1
      refine ⟨rfl, hne, ?_⟩
      rw [show executeSteps po jo ro db0.nextId (getWorkflowSteps db0 wid) = execLoop po jo ro db0.nextId 0 "" 0 0 (getWorkflowSteps db0 wid) from rfl] at h2
      rw [execLoop_characterization po jo ro db0.nextId (getWorkflowSteps db0 wid)
        (mkPendingRecs db0.nextId (db0.nextId + 1) (getWorkflowSteps db0 wid)) 0 "" 0 0
        _ _ db0.step_executions db0.runs []
        { id := db0.nextId, workflow_id := wid, status := "running",
          total_cost := 0, total_tokens := 0 }
        rfl
        (mkPendingRecs_forall2 db0.nextId (getWorkflowSteps db0 wid) (db0.nextId + 1))
        (fun e he hrun => absurd hrun (Nat.ne_of_lt (hwf.1 e he).2))
        (by
          rw [List.map_append, List.nodup_append]
          refine ⟨hwf.2.2.2, ?_, ?_⟩
          · rw [mkPendingRecs_map_id]
            exact List.nodup_range' _ _
          · intro a ha hb
            rw [mkPendingRecs_map_id, List.mem_range'] at hb
            obtain ⟨e, he, rfl⟩ := List.mem_map.mp ha
            obtain ⟨j, hj, hval⟩ := hb
            have := (hwf.1 e he).1
            omega)
        (getWorkflowSteps_nodup db0 wid hwf.2.2.1)
        rfl
        rfl
        (fun r' hr' => Nat.ne_of_lt (hwf.2.1 r' hr'))] at h2
      dsimp only at h2
      rw [Prod.mk.injEq] at h2
      obtain ⟨hdb1, heng1⟩ := h2
      constructor
      · rw [← hdb1]
      · rw [← heng1]
        simp [mapDelete_mapSet_self]

theorem zipApply_nil (recs : List StepExecution) : zipApply recs [] = recs := by
  cases recs <;> rfl

theorem forall2_recs_fields (runId : Nat) :
    ∀ (ss : List Step) (recs : List StepExecution),
      List.Forall₂ (recMatches runId) ss recs →
      ∀ e ∈ recs, e.run_id = runId ∧ e.status = "pending" := by
  intro ss recs hal
  induction hal with
  | nil => intro e he; simp at he
  | cons hm _ ih =>
    intro e he
    rcases List.mem_cons.mp he with rfl | he
    · exact ⟨hm.1, hm.2.2⟩
    · exact ih e he

theorem zipApply_run_id (runId : Nat) :
    ∀ (ss : List Step) (recs : List StepExecution),
      List.Forall₂ (recMatches runId) ss recs →
      ∀ (outs : List StepOutcome), ∀ e ∈ zipApply recs outs, e.run_id = runId := by
  intro ss recs hal
  induction hal with
  | nil =>
    intro outs e he
    cases outs <;> simp [zipApply] at he
  | @cons s se ss' recs' hm hal' ih =>
    intro outs e he
    cases outs with
    | nil =>
      rcases List.mem_cons.mp he with rfl | he
      · exact hm.1
      · exact (forall2_recs_fields runId ss' recs' hal' e he).1
    | cons o outs' =>
      rcases List.mem_cons.mp he with rfl | he
      · exact hm.1
      · exact ih outs' e he

theorem zipApply_status_shape (po : ProviderOracle) (jo : JudgeOracle) (ro : RegexOracle)
    (runId : Nat) :
    ∀ (ss : List Step) (recs : List StepExecution) (i : Nat) (ctx : String),
      List.Forall₂ (recMatches runId) ss recs →
      (outcomesPassed (stepsOutcome po jo ro i ctx ss) = true ∧
        ∀ e ∈ zipApply recs (stepsOutcome po jo ro i ctx ss), e.status = "passed") ∨
      (outcomesPassed (stepsOutcome po jo ro i ctx ss) = false ∧
        ∃ pre x post, zipApply recs (stepsOutcome po jo ro i ctx ss) = pre ++ x :: post ∧
          x.status = "failed" ∧ (∀ e ∈ pre, e.status = "passed") ∧
          (∀ e ∈ post, e.status = "pending")) := by
  intro ss
  induction ss with
  | nil =>
    intro recs i ctx hal
    cases hal
    left
    exact ⟨rfl, by intro e he; simp [stepsOutcome, zipApply] at he⟩
  | cons s ss ih =>
    intro recs i ctx hal
    cases hal with
    | @cons _ se _ recs' hm hal' =>
    by_cases hp : (stepOutcome po jo ro i ctx s).passed = true
    · have hout : stepsOutcome po jo ro i ctx (s :: ss) =
          stepOutcome po jo ro i ctx s ::
            stepsOutcome po jo ro (i + 1)
              (extractContext (stepOutcome po jo ro i ctx s).output s.context_mode) ss := by
        simp only [stepsOutcome]
        rw [if_pos hp]
      rw [hout]
      have hap : (applyOutcome se (stepOutcome po jo ro i ctx s)).status = "passed" := by
        simp [applyOutcome, hp]
      rcases ih recs' (i + 1)
          (extractContext (stepOutcome po jo ro i ctx s).output s.context_mode) hal' with
        ⟨hall, hmem⟩ | ⟨hfail, pre, x, post, heq, hx, hpre2, hpost⟩
      · left
        refine ⟨by simp [outcomesPassed, hp] at hall ⊢; exact hall, ?_⟩
        intro e he
        rcases List.mem_cons.mp he with rfl | he
        · exact hap
        · exact hmem e he
      · right
        refine ⟨by unfold outcomesPassed at hfail ⊢; simp [hfail], ?_⟩
        refine ⟨applyOutcome se (stepOutcome po jo ro i ctx s) :: pre, x, post, ?_, hx, ?_, hpost⟩
        · simp [zipApply, heq]
        · intro e he
          rcases List.mem_cons.mp he with rfl | he
          · exact hap
          · exact hpre2 e he
    · rw [Bool.not_eq_true] at hp
      have hout : stepsOutcome po jo ro i ctx (s :: ss) =
          stepOutcome po jo ro i ctx s :: [] := by
        simp only [stepsOutcome]
        rw [if_neg (by simp [hp])]
      rw [hout]
      right
      refine ⟨by simp [outcomesPassed, hp], [], applyOutcome se (stepOutcome po jo ro i ctx s),
        recs', by simp [zipApply], by simp [applyOutcome, hp], by simp, ?_⟩
      intro e he
      exact (forall2_recs_fields runId ss recs' hal' e he).2

theorem zipApply_attempts_forall2 (po : ProviderOracle) (jo : JudgeOracle)
    (ro : RegexOracle) (runId : Nat) :
    ∀ (ss : List Step) (recs : List StepExecution) (i : Nat) (ctx : String),
      List.Forall₂ (recMatches runId) ss recs →
      (∀ s ∈ ss, 1 ≤ s.retry_limit) →
      List.Forall₂
        (fun s e => e.step_id = s.id ∧
          (e.status ≠ "pending" → 1 ≤ e.attempts ∧ e.attempts ≤ s.retry_limit))
        ss (zipApply recs (stepsOutcome po jo ro i ctx ss)) := by
  intro ss
  induction ss with
  | nil =>
    intro recs i ctx hal _
    cases hal
    exact List.Forall₂.nil
  | cons s ss ih =>
    intro recs i ctx hal hpos
    cases hal with
    | @cons _ se _ recs' hm hal' =>
    have hhead : (applyOutcome se (stepOutcome po jo ro i ctx s)).step_id = s.id ∧
        ((applyOutcome se (stepOutcome po jo ro i ctx s)).status ≠ "pending" →
          1 ≤ (applyOutcome se (stepOutcome po jo ro i ctx s)).attempts ∧
            (applyOutcome se (stepOutcome po jo ro i ctx s)).attempts ≤ s.retry_limit) := by
      refine ⟨hm.2.1, fun _ => ?_⟩
      have := runAttempts_bounds po jo ro i s ctx (hpos s (by simp))
      simpa [applyOutcome, stepOutcome] using this
    by_cases hp : (stepOutcome po jo ro i ctx s).passed = true
    · have hout : stepsOutcome po jo ro i ctx (s :: ss) =
          stepOutcome po jo ro i ctx s ::
            stepsOutcome po jo ro (i + 1)
              (extractContext (stepOutcome po jo ro i ctx s).output s.context_mode) ss := by
        simp only [stepsOutcome]
        rw [if_pos hp]
      rw [hout]
      exact List.Forall₂.cons hhead
        (ih recs' (i + 1) _ hal' fun s' hs' => hpos s' (by simp [hs']))
    · rw [Bool.not_eq_true] at hp
      have hout : stepsOutcome po jo ro i ctx (s :: ss) =
          stepOutcome po jo ro i ctx s :: [] := by
        simp only [stepsOutcome]
        rw [if_neg (by simp [hp])]
      rw [hout]
      refine List.Forall₂.cons hhead ?_
      rw [zipApply_nil]
      refine hal'.imp ?_
      intro a b hm'
      exact ⟨hm'.2.1, fun hne => absurd hm'.2.2 hne⟩

theorem zipApply_contextChain (po : ProviderOracle) (jo : JudgeOracle)
    (ro : RegexOracle) (runId : Nat) :
    ∀ (ss : List Step) (recs : List StepExecution) (i : Nat) (ctx : String),
      List.Forall₂ (recMatches runId) ss recs →
      ContextChain ctx ss (zipApply recs (stepsOutcome po jo ro i ctx ss)) := by
  intro ss
  induction ss with
  | nil =>
    intro recs i ctx hal
    cases hal
    simp [ContextChain, stepsOutcome, zipApply]
  | cons s ss ih =>
    intro recs i ctx hal
    cases hal with
    | @cons _ se _ recs' hm hal' =>
    by_cases hp : (stepOutcome po jo ro i ctx s).passed = true
    · have hout : stepsOutcome po jo ro i ctx (s :: ss) =
          stepOutcome po jo ro i ctx s ::
            stepsOutcome po jo ro (i + 1)
              (extractContext (stepOutcome po jo ro i ctx s).output s.context_mode) ss := by
        simp only [stepsOutcome]
        rw [if_pos hp]
      rw [hout]
      refine ⟨fun _ => rfl, fun _ => ⟨(stepOutcome po jo ro i ctx s).output, rfl, ?_⟩⟩
      exact ih recs' (i + 1) _ hal'
    · rw [Bool.not_eq_true] at hp
      have hout : stepsOutcome po jo ro i ctx (s :: ss) =
          stepOutcome po jo ro i ctx s :: [] := by
        simp only [stepsOutcome]
        rw [if_neg (by simp [hp])]
      rw [hout]
      refine ⟨fun _ => rfl, fun hpass => ?_⟩
      exfalso
      have : (applyOutcome se (stepOutcome po jo ro i ctx s)).status = "failed" := by
        simp [applyOutcome, hp]
      rw [hpass] at this
      simp at this

theorem mapGet_mapDelete_self (m : List (Nat × ActiveRun)) (k : Nat) :
    mapGet (mapDelete m k) k = none := by
  unfold mapGet mapDelete
  rw [show ((m.filter fun e => decide (e.1 ≠ k)).find? fun e => decide (e.1 = k)) = none from ?_]
  · rfl
  · rw [List.find?_eq_none]
    intro x hx
    simp only [decide_eq_true_eq]
    have := (List.mem_filter.mp hx).2
    simp only [decide_eq_true_eq] at this
    exact this

theorem mem_mapDelete {m : List (Nat × ActiveRun)} {k : Nat} :
    ∀ p ∈ mapDelete m k, p ∈ m := by
  intro p hp
  exact (List.mem_filter.mp hp).1

/-! ## Claims -/

/-- Claim C1, counterexample.  The claim asserts that whenever the template
contains the placeholder, every occurrence is substituted — "in particular
also when previousContext is the empty string".  With template `{context}`
and empty context the engine sends the prompt unmodified (the guard
`previousContext && ...` is falsy), while every-occurrence substitution
would produce the empty string. -/
theorem renderPrompt_counterexample :
    renderPrompt ⟨contextPat⟩ "" = ⟨contextPat⟩ ∧
    replaceContextSpec ⟨contextPat⟩ "" = "" ∧ (⟨contextPat⟩ : String) ≠ "" := by
  decide

/-- Claim C1 (amended).  For every step attempt: if `previousContext` is
non-empty (and free of replacement-pattern dollar sequences) and the
template contains the placeholder, every occurrence of the placeholder in
the rendered prompt is replaced by `previousContext`; if the template has
no placeholder **or `previousContext` is empty**, the prompt is sent
unmodified. -/
theorem renderPrompt_spec (tmpl ctx : String) :
    (ctx ≠ "" → noDollar ctx = true → containsSubstr tmpl ⟨contextPat⟩ = true →
      renderPrompt tmpl ctx = replaceContextSpec tmpl ctx) ∧
    (ctx = "" ∨ containsSubstr tmpl ⟨contextPat⟩ = false →
      renderPrompt tmpl ctx = tmpl) :=
  ⟨fun hne hnd hcon => renderPrompt_eq_lit tmpl ctx hne hnd hcon,
   fun h => renderPrompt_no_sub tmpl ctx h⟩

/-- Witness for `renderPrompt_spec` at a concrete template and context. -/
theorem renderPrompt_spec_witness :
    renderPrompt "a\x7bcontext\x7db" "X" = replaceContextSpec "a\x7bcontext\x7db" "X" :=
  (renderPrompt_spec "a\x7bcontext\x7db" "X").1 (by decide) (by decide) (by decide)

/-- Claim C2, counterexample.  The claim asserts the separate context
argument equals `previousContext` whenever the template has no placeholder
"for every value of previousContext, including text that happens to occur
verbatim inside the prompt".  With template `abc` (no placeholder) and
context `abc`, the engine's substring test `prompt.includes(previousContext)`
is true, so it passes the empty string instead of `abc`. -/
theorem contextToPass_counterexample :
    containsSubstr "abc" ⟨contextPat⟩ = false ∧
    renderPrompt "abc" "abc" = "abc" ∧
    contextToPass (renderPrompt "abc" "abc") "abc" = "" ∧
    ("abc" : String) ≠ "" := by
  decide

/-- Claim C2 (amended).  The out-of-band context argument equals the empty
string exactly when the rendered prompt contains `previousContext` as a
substring (in particular whenever the placeholder substitution occurred,
and always when `previousContext` is empty), and equals `previousContext`
otherwise. -/
theorem contextToPass_spec (tmpl ctx : String) :
    (contextToPass (renderPrompt tmpl ctx) ctx = "" ↔
      containsSubstr (renderPrompt tmpl ctx) ctx = true) ∧
    (ctx ≠ "" → noDollar ctx = true → containsSubstr tmpl ⟨contextPat⟩ = true →
      contextToPass (renderPrompt tmpl ctx) ctx = "") :=
  ⟨contextToPass_empty_iff _ ctx,
   fun hne hnd hcon => by
     rw [renderPrompt_eq_lit tmpl ctx hne hnd hcon]
     exact (contextToPass_empty_iff _ ctx).mpr (replaceContextSpec_contains tmpl ctx hcon)⟩

/-- Witness for `contextToPass_spec` at a concrete template and context. -/
theorem contextToPass_spec_witness :
    contextToPass (renderPrompt "a\x7bcontext\x7db" "X") "X" = "" :=
  (contextToPass_spec "a\x7bcontext\x7db" "X").2 (by decide) (by decide) (by decide)

/-- Claim C3, counterexample.  The claim asserts that with value `"0"`
(which parses to `0`) the `length_max` criterion passes iff the output has
length ≤ 0; but `parseInt("0") || Infinity` evaluates to `Infinity`
(`0` is falsy), so `evaluate("x", 'length_max', "0")` passes although
`"x"` has length 1. -/
theorem lengthMax_counterexample :
    (evaluateCriteria regexOracleUnused none "x" "length_max" "0").passed = true ∧
    jsParseInt "0" = some 0 ∧ ¬("x".length ≤ 0) := by
  decide

/-- Claim C3 (amended).  For every non-empty output and every value string,
`evaluate(output, 'length_max', value)` parses the value as an integer,
defaulting to no limit when the parse fails **or yields 0**, and passes
iff the output's length is at most that integer. -/
theorem lengthMax_spec (rt : RegexOracle) (judge : Option (String → Except String String))
    (out v : String) (hne : out ≠ "") :
    (evaluateCriteria rt judge out "length_max" v).passed = true ↔
      (jsParseInt v = none ∨ jsParseInt v = some 0 ∨
        ∃ n : Int, jsParseInt v = some n ∧ (out.length : Int) ≤ n) := by
  have hemp : out.isEmpty = false := isEmpty_false_of_ne hne
  have hred : evaluateCriteria rt judge out "length_max" v =
      if out.isEmpty then { passed := false, reason := "No output received" }
      else evaluateLengthMax out v := rfl
  rw [hred, hemp]
  simp only [Bool.false_eq_true, if_false]
  unfold evaluateLengthMax lengthMaxLimit
  rcases h : jsParseInt v with _ | n
  · simp [h]
  · by_cases hn : n = 0
    · subst hn; simp [h]
    · simp only [h, if_neg hn]
      constructor
      · intro hp
        refine Or.inr (Or.inr ⟨n, rfl, ?_⟩)
        simpa using hp
      · rintro (hc | hc | ⟨m, hm, hlen⟩)
        · exact absurd hc (by simp)
        · exact absurd (Option.some.injEq .. ▸ hc) hn
        · have : m = n := by simpa using hm.symm
          subst this
          simpa using hlen

/-- Witness for `lengthMax_spec` at a concrete output and value. -/
theorem lengthMax_spec_witness :
    ((evaluateCriteria regexOracleUnused none "x" "length_max" "5").passed = true ↔
      (jsParseInt "5" = none ∨ jsParseInt "5" = some 0 ∨
        ∃ n : Int, jsParseInt "5" = some n ∧ (("x".length : Int) ≤ n))) :=
  lengthMax_spec regexOracleUnused none "x" "5" (by decide)

/-- Claim C4.  For every criterion kind (including `always` and
unrecognized kinds), every criterion value, and every oracle instantiation,
evaluating the empty output returns a failed verdict with the fixed
"No output received" reason. -/
theorem evaluateCriteria_empty_output (rt : RegexOracle)
    (judge : Option (String → Except String String)) (kind value : String) :
    evaluateCriteria rt judge "" kind value =
      { passed := false, reason := "No output received" } := rfl

/-- Claim C8.  The `json` criterion passes iff one of the candidate
substrings (fenced block tagged `json`, any fenced block, brace-delimited,
bracket-delimited, searched in that order) parses as JSON, or the entire
output does; in particular `{"a":1} and more text` passes for every value
(bare-brace extraction) and `not json at all` fails for every value. -/
theorem json_criterion_spec :
    (∀ (rt : RegexOracle) (judge : Option (String → Except String String)) (out v : String),
      out ≠ "" →
      ((evaluateCriteria rt judge out "json" v).passed = true ↔
        ((jsonCandidates out.data).any (fun c => jsonValidL c) = true ∨
          jsonValidL out.data = true))) ∧
    (∀ (rt : RegexOracle) (judge : Option (String → Except String String)) (v : String),
      (evaluateCriteria rt judge "\x7b\"a\":1\x7d and more text" "json" v).passed = true) ∧
    (∀ (rt : RegexOracle) (judge : Option (String → Except String String)) (v : String),
      (evaluateCriteria rt judge "not json at all" "json" v).passed = false) := by
  refine ⟨?_, ?_, ?_⟩
  · intro rt judge out v hne
    have hemp : out.isEmpty = false := isEmpty_false_of_ne hne
    have hred : evaluateCriteria rt judge out "json" v =
        if out.isEmpty then { passed := false, reason := "No output received" }
        else evaluateJson out := rfl
    rw [hred, hemp]
    simp only [Bool.false_eq_true, if_false]
    unfold evaluateJson
    by_cases h1 : (jsonCandidates out.data).any (fun c => jsonValidL c) = true
    · simp [h1]
    · by_cases h2 : jsonValidL out.data = true <;> simp [h1, h2]
  · intro rt judge v
    exact (by decide : (evaluateJson "\x7b\"a\":1\x7d and more text").passed = true)
  · intro rt judge v
    exact (by decide : (evaluateJson "not json at all").passed = false)

/-- Witness for `json_criterion_spec` at a concrete output. -/
theorem json_criterion_spec_witness :
    ((evaluateCriteria regexOracleUnused none "[1]" "json" "").passed = true ↔
      ((jsonCandidates "[1]".data).any (fun c => jsonValidL c) = true ∨
        jsonValidL "[1]".data = true)) :=
  json_criterion_spec.1 regexOracleUnused none "[1]" "" (by decide)

/-- Claim C9.  The entry point `execute(workflowId)` fails synchronously with the not-found
error when the workflow does not exist and with the empty-workflow error
when it has zero steps, and in both cases the whole state — in particular
the `runs` and `step_executions` tables — is returned unchanged. -/
theorem execute_precondition_spec (st : DB × Engine) (wid : Nat) :
    (getWorkflow st.1 wid = none →
      execute st wid = (.error "Workflow not found", st)) ∧
    (∀ w, getWorkflow st.1 wid = some w → getWorkflowSteps st.1 wid = [] →
      execute st wid = (.error "Workflow has no steps", st)) := by
  constructor
  · intro h
    unfold execute
    rw [h]
  · intro w hw hsteps
    unfold execute
    rw [hw, hsteps]
    rfl

/-- Witness for `execute_precondition_spec` on the empty database. -/
theorem execute_precondition_spec_witness :
    execute (⟨[], [], [], [], 0⟩, ⟨[]⟩) 0 =
      (.error "Workflow not found", (⟨[], [], [], [], 0⟩, ⟨[]⟩)) :=
  (execute_precondition_spec (⟨[], [], [], [], 0⟩, ⟨[]⟩) 0).1 (by decide)

/-- The run's step-execution records after `executeAndRun` are exactly the
outcome-updated fresh records, in step order. -/
theorem runExecs_executeAndRun (po : ProviderOracle) (jo : JudgeOracle) (ro : RegexOracle)
    (db0 : DB) (eng0 : Engine) (wid runId : Nat) (db1 : DB) (eng1 : Engine)
    (hwf : DBwf db0)
    (h : executeAndRun po jo ro (db0, eng0) wid = (.ok runId, (db1, eng1))) :
    runExecs db1 runId =
      zipApply (mkPendingRecs runId (db0.nextId + 1) (getWorkflowSteps db0 wid))
        (stepsOutcome po jo ro 0 "" (getWorkflowSteps db0 wid)) := by
  obtain ⟨hrid, hne, hdb1, heng⟩ := executeAndRun_ok po jo ro db0 eng0 wid runId db1 eng1 hwf h
  subst hrid
  rw [hdb1]
  unfold runExecs
  dsimp only
  rw [List.filter_append]
  have h1 : (db0.step_executions.filter fun se => decide (se.run_id = db0.nextId)) = [] := by
    rw [List.filter_eq_nil_iff]
    intro e he
    simp only [decide_eq_true_eq]
    exact Nat.ne_of_lt (hwf.1 e he).2
  have h2 :
      ((zipApply (mkPendingRecs db0.nextId (db0.nextId + 1) (getWorkflowSteps db0 wid))
          (stepsOutcome po jo ro 0 "" (getWorkflowSteps db0 wid))).filter
        fun se => decide (se.run_id = db0.nextId)) =
      zipApply (mkPendingRecs db0.nextId (db0.nextId + 1) (getWorkflowSteps db0 wid))
        (stepsOutcome po jo ro 0 "" (getWorkflowSteps db0 wid)) := by
    rw [List.filter_eq_self]
    intro e he
    simp only [decide_eq_true_eq]
    exact zipApply_run_id db0.nextId _ _
      (mkPendingRecs_forall2 db0.nextId (getWorkflowSteps db0 wid) (db0.nextId + 1)) _ e he
  rw [h1, h2, List.nil_append]

/-- Claim C5.  For every run of the engine that reaches a terminal state,
the run's status is `completed` iff every one of its step executions is
`passed`, and `failed` iff exactly one step execution is `failed` and
every step execution after it remains `pending`. -/
theorem run_terminal_status_spec (po : ProviderOracle) (jo : JudgeOracle) (ro : RegexOracle)
    (db0 : DB) (eng0 : Engine) (wid runId : Nat) (db1 : DB) (eng1 : Engine)
    (hwf : DBwf db0)
    (h : executeAndRun po jo ro (db0, eng0) wid = (.ok runId, (db1, eng1))) :
    ∃ r, db1.runs.find? (fun x => decide (x.id = runId)) = some r ∧
      (r.status = "completed" ∨ r.status = "failed") ∧
      (r.status = "completed" ↔ ∀ e ∈ runExecs db1 runId, e.status = "passed") ∧
      (r.status = "failed" ↔
        ∃ pre x post, runExecs db1 runId = pre ++ x :: post ∧
          x.status = "failed" ∧ (∀ e ∈ pre, e.status ≠ "failed") ∧
          (∀ e ∈ post, e.status = "pending")) := by
  have hexecs := runExecs_executeAndRun po jo ro db0 eng0 wid runId db1 eng1 hwf h
  obtain ⟨hrid, hne, hdb1, heng⟩ := executeAndRun_ok po jo ro db0 eng0 wid runId db1 eng1 hwf h
  subst hrid
  have hfind : db1.runs.find? (fun x => decide (x.id = db0.nextId)) =
      some { id := db0.nextId, workflow_id := wid,
             status :=
               if outcomesPassed (stepsOutcome po jo ro 0 "" (getWorkflowSteps db0 wid))
               then "completed" else "failed",
             total_cost := 0 + sumCost (stepsOutcome po jo ro 0 "" (getWorkflowSteps db0 wid)),
             total_tokens :=
               0 + sumTokens (stepsOutcome po jo ro 0 "" (getWorkflowSteps db0 wid)) } := by
    rw [hdb1]
    dsimp only
    rw [List.find?_append]
    have h1 : (db0.runs.find? fun x => decide (x.id = db0.nextId)) = none := by
      rw [List.find?_eq_none]
      intro x hx
      simp only [decide_eq_true_eq]
      exact Nat.ne_of_lt (hwf.2.1 x hx)
    rw [h1]
    simp [List.find?_cons]
  refine ⟨_, hfind, ?_⟩
  dsimp only
  rw [hexecs]
  rcases zipApply_status_shape po jo ro db0.nextId (getWorkflowSteps db0 wid)
      (mkPendingRecs db0.nextId (db0.nextId + 1) (getWorkflowSteps db0 wid)) 0 ""
      (mkPendingRecs_forall2 db0.nextId (getWorkflowSteps db0 wid) (db0.nextId + 1)) with
    ⟨hall, hmem⟩ | ⟨hfail, pre, x, post, heq, hx, hpre, hpost⟩
  · have hst :
        (if outcomesPassed (stepsOutcome po jo ro 0 "" (getWorkflowSteps db0 wid)) = true
          then "completed" else "failed") = "completed" := by
      simp [hall]
    rw [hst]
    refine ⟨Or.inl rfl, ⟨fun _ => hmem, fun _ => rfl⟩, ?_⟩
    constructor
    · intro hco
      exact absurd hco (by decide)
    · rintro ⟨pre, x, post, heq', hx, _, _⟩
      have : x.status = "passed" := hmem x (by rw [heq']; simp)
      rw [this] at hx
      exact absurd hx (by decide)
  · have hst :
        (if outcomesPassed (stepsOutcome po jo ro 0 "" (getWorkflowSteps db0 wid)) = true
          then "completed" else "failed") = "failed" := by
      simp [hfail]
    rw [hst]
    refine ⟨Or.inr rfl, ?_, ?_⟩
    · constructor
      · intro hco
        exact absurd hco (by decide)
      · intro hallp
        have : x.status = "passed" := hallp x (by rw [heq]; simp)
        rw [this] at hx
        exact absurd hx (by decide)
    · refine ⟨fun _ => ⟨pre, x, post, heq, hx, ?_, hpost⟩, fun _ => rfl⟩
      intro e he
      rw [hpre e he]
      decide

/-- Witness for `run_terminal_status_spec` on the concrete fixture run. -/
theorem run_terminal_status_spec_witness :
    ∃ r, db1Fix.runs.find? (fun x => decide (x.id = 3)) = some r ∧
      (r.status = "completed" ∨ r.status = "failed") ∧
      (r.status = "completed" ↔ ∀ e ∈ runExecs db1Fix 3, e.status = "passed") ∧
      (r.status = "failed" ↔
        ∃ pre x post, runExecs db1Fix 3 = pre ++ x :: post ∧
          x.status = "failed" ∧ (∀ e ∈ pre, e.status ≠ "failed") ∧
          (∀ e ∈ post, e.status = "pending")) :=
  run_terminal_status_spec poFix joFix regexOracleUnused dbFix engFix 0 3 db1Fix eng1Fix
    (by decide) (by rfl)

/-- Claim C6.  For every step the engine executes (`retry_limit` positive),
the recorded attempt count of its terminal (non-pending) step execution
satisfies `1 ≤ attempts ≤ retry_limit`; the records correspond to the
workflow's steps in order. -/
theorem attempts_bounds_spec (po : ProviderOracle) (jo : JudgeOracle) (ro : RegexOracle)
    (db0 : DB) (eng0 : Engine) (wid runId : Nat) (db1 : DB) (eng1 : Engine)
    (hwf : DBwf db0)
    (hpos : ∀ s ∈ getWorkflowSteps db0 wid, 1 ≤ s.retry_limit)
    (h : executeAndRun po jo ro (db0, eng0) wid = (.ok runId, (db1, eng1))) :
    List.Forall₂
      (fun s e => e.step_id = s.id ∧
        (e.status ≠ "pending" → 1 ≤ e.attempts ∧ e.attempts ≤ s.retry_limit))
      (getWorkflowSteps db0 wid) (runExecs db1 runId) := by
  have hexecs := runExecs_executeAndRun po jo ro db0 eng0 wid runId db1 eng1 hwf h
  obtain ⟨hrid, _, _, _⟩ := executeAndRun_ok po jo ro db0 eng0 wid runId db1 eng1 hwf h
  subst hrid
  rw [hexecs]
  exact zipApply_attempts_forall2 po jo ro db0.nextId (getWorkflowSteps db0 wid) _ 0 ""
    (mkPendingRecs_forall2 db0.nextId (getWorkflowSteps db0 wid) (db0.nextId + 1)) hpos

/-- Witness for `attempts_bounds_spec` on the concrete fixture run. -/
theorem attempts_bounds_spec_witness :
    List.Forall₂
      (fun s e => e.step_id = s.id ∧
        (e.status ≠ "pending" → 1 ≤ e.attempts ∧ e.attempts ≤ s.retry_limit))
      (getWorkflowSteps dbFix 0) (runExecs db1Fix 3) :=
  attempts_bounds_spec poFix joFix regexOracleUnused dbFix engFix 0 3 db1Fix eng1Fix
    (by decide) (by decide) (by rfl)

/-- Claim C7.  For every run, the context handed into the first step is the
empty string, and the context handed into step `i + 1` is `extractContext`
of the passing attempt's output of step `i` under step `i`'s context mode
(expressed by the `ContextChain` predicate over the run's records in step
order). -/
theorem context_chain_spec (po : ProviderOracle) (jo : JudgeOracle) (ro : RegexOracle)
    (db0 : DB) (eng0 : Engine) (wid runId : Nat) (db1 : DB) (eng1 : Engine)
    (hwf : DBwf db0)
    (h : executeAndRun po jo ro (db0, eng0) wid = (.ok runId, (db1, eng1))) :
    ContextChain "" (getWorkflowSteps db0 wid) (runExecs db1 runId) := by
  have hexecs := runExecs_executeAndRun po jo ro db0 eng0 wid runId db1 eng1 hwf h
  obtain ⟨hrid, _, _, _⟩ := executeAndRun_ok po jo ro db0 eng0 wid runId db1 eng1 hwf h
  subst hrid
  rw [hexecs]
  exact zipApply_contextChain po jo ro db0.nextId (getWorkflowSteps db0 wid) _ 0 ""
    (mkPendingRecs_forall2 db0.nextId (getWorkflowSteps db0 wid) (db0.nextId + 1))

/-- Witness for `context_chain_spec` on the concrete fixture run. -/
theorem context_chain_spec_witness :
    ContextChain "" (getWorkflowSteps dbFix 0) (runExecs db1Fix 3) :=
  context_chain_spec poFix joFix regexOracleUnused dbFix engFix 0 3 db1Fix eng1Fix
    (by decide) (by rfl)

/-- Claim C10.  Every entry of the in-memory active-run table keeps status
`running` (entries are only ever inserted as `running` and deleted, never
mutated), and once a run reaches a terminal state `getRunStatus` returns
`none` for it even though the persisted run record still exists with a
terminal status. -/
theorem active_runs_spec (po : ProviderOracle) (jo : JudgeOracle) (ro : RegexOracle)
    (db0 : DB) (eng0 : Engine) (wid runId : Nat) (db1 : DB) (eng1 : Engine)
    (hwf : DBwf db0)
    (hrun : ∀ p ∈ eng0.activeRuns, p.2.status = "running")
    (h : executeAndRun po jo ro (db0, eng0) wid = (.ok runId, (db1, eng1))) :
    (∀ p ∈ eng1.activeRuns, p.2.status = "running") ∧
    getRunStatus eng1 runId = none ∧
    ∃ r ∈ db1.runs, r.id = runId ∧ (r.status = "completed" ∨ r.status = "failed") := by
  obtain ⟨hrid, hne, hdb1, heng⟩ := executeAndRun_ok po jo ro db0 eng0 wid runId db1 eng1 hwf h
  subst hrid
  refine ⟨?_, ?_, ?_⟩
  · intro p hp
    rw [heng] at hp
    exact hrun p (mem_mapDelete p hp)
  · unfold getRunStatus
    rw [heng]
    exact mapGet_mapDelete_self _ _
  · refine
      ⟨{ id := db0.nextId, workflow_id := wid,
         status :=
           if outcomesPassed (stepsOutcome po jo ro 0 "" (getWorkflowSteps db0 wid)) = true
           then "completed" else "failed",
         total_cost := 0 + sumCost (stepsOutcome po jo ro 0 "" (getWorkflowSteps db0 wid)),
         total_tokens :=
           0 + sumTokens (stepsOutcome po jo ro 0 "" (getWorkflowSteps db0 wid)) },
       ?_, rfl, ?_⟩
    · rw [hdb1]
      dsimp only
      exact List.mem_append_right _ (by simp)
    · cases hoc : outcomesPassed (stepsOutcome po jo ro 0 "" (getWorkflowSteps db0 wid))
      · right
        simp [hoc]
      · left
        simp [hoc]

/-- Witness for `active_runs_spec` on the concrete fixture run. -/
theorem active_runs_spec_witness :
    (∀ p ∈ eng1Fix.activeRuns, p.2.status = "running") ∧
    getRunStatus eng1Fix 3 = none ∧
    ∃ r ∈ db1Fix.runs, r.id = 3 ∧ (r.status = "completed" ∨ r.status = "failed") :=
  active_runs_spec poFix joFix regexOracleUnused dbFix engFix 0 3 db1Fix eng1Fix
    (by decide) (by decide) (by rfl)

end FlowForge

example : (FlowForge.evaluateLengthMax "x" "0").passed = true := by decide
example : (FlowForge.evaluateLengthMax "xxx" "2").passed = false := by decide
example : (FlowForge.evaluateLengthMax "xxx" "abc").passed = true := by decide
example : FlowForge.jsParseInt "  -42abc" = some (-42) := by decide
example : FlowForge.jsParseInt "0x10" = some 16 := by decide
example : FlowForge.jsParseInt "abc" = none := by decide
example : (FlowForge.evaluateContains "Hello World" "hello").passed = true := by decide
example : FlowForge.renderPrompt "a\x7bcontext\x7db\x7bcontext\x7dc" "X" = "aXbXc" := by decide
example : FlowForge.renderPrompt "\x7bcontext\x7d" "" = "\x7bcontext\x7d" := by decide
example : FlowForge.replaceContextSpec "\x7bcontext\x7d" "" = "" := by decide
example : FlowForge.jsReplaceContext "a\x7bcontext\x7d" "$&!" = "a\x7bcontext\x7d!" := by decide
example : FlowForge.jsReplaceContext "ab\x7bcontext\x7dcd" "<$-|$$>" = "ab<$-|$>cd" := by decide
example : FlowForge.contextToPass "abc" "abc" = "" := by decide
example : FlowForge.contextToPass "abc" "xyz" = "xyz" := by decide
example : FlowForge.contextToPass "abc" "" = "" := by decide
example : (FlowForge.evaluateJson "\x7b\"a\":1\x7d and more text").passed = true := by decide
example : (FlowForge.evaluateJson "not json at all").passed = false := by decide
example : FlowForge.jsonValidL ("[1, 2.5e3, \"a\\n\", null, true]").data = true := by decide
example : FlowForge.jsonValidL ("[1, 2,]").data = false := by decide
example : FlowForge.jsonValidL ("\x7b\"a\": [false]\x7d").data = true := by decide
example : FlowForge.extractContext "para one\n\npara two" "first_paragraph" = "para one" := by decide
example : FlowForge.extractContext "para one\n\npara two" "last_paragraph" = "para two" := by decide
example : FlowForge.extractContext "out" "full" = "out" := by decide
